import Mathlib

/-!
Shallow embedding of the multi-patch B-spline connectivity layer of
bsplyne (file bsplyne/multi_patch_b_spline.py), together with proofs of
the specification's testable properties.

Modelling conventions:
* numpy integer arrays become Lean lists (ℕ or ℤ), indexed with getD;
* the mutable parent/rank arrays of the union-find code become functions
  ℕ → ℕ updated pointwise; the naturally terminating recursive find is
  embedded with an explicit fuel argument (fuel n always suffices on a
  valid parent forest, which is proved, not assumed);
* a field array is viewed along its last (node) axis: an entry of the
  Lean list is the whole fibre of leading field axes at one node, so an
  arbitrary element type α models arbitrary leading field shapes;
* numpy float arrays of control points become flat row-major lists of ℚ
  with an explicit shape (structure NDArr below); np.allclose is the
  exact elementwise |a-b| ≤ atol + rtol*|b| test with numpy's default
  tolerances as rational constants.
-/

namespace Bsplyne

/-- Pointwise update of a parent/rank map, modelling array assignment
parent[x] = v. -/
def pupd (p : Nat → Nat) (x v : Nat) : Nat → Nat :=
  fun j => if j = x then v else p j

/-- Union-find find with path compression (multi_patch_b_spline.py lines
17-21): if parent[x] != x, parent[x] = find(parent, parent[x]); return
parent[x].  The fuel argument makes the recursion structural; fuel = n
suffices on a valid forest of n nodes. -/
def findF : Nat → (Nat → Nat) → Nat → (Nat → Nat) × Nat
  | 0, p, x => (p, x)
  | fuel + 1, p, x =>
      if p x = x then (p, x)
      else
        let r := findF fuel p (p x)
        (pupd r.1 x r.2, r.2)

/-- Union by rank (multi_patch_b_spline.py lines 23-34): attach the
lower-rank root under the higher-rank root, incrementing rank on ties.
Takes and returns the (parent, rank) pair of maps. -/
def unionF (n : Nat) (p : Nat → Nat) (rk : Nat → Nat) (x y : Nat) :
    (Nat → Nat) × (Nat → Nat) :=
  let fx := findF n p x
  let fy := findF n fx.1 y
  let rootX := fx.2
  let rootY := fy.2
  let p2 := fy.1
  if rootX = rootY then (p2, rk)
  else if rk rootY < rk rootX then (pupd p2 rootY rootX, rk)
  else if rk rootX < rk rootY then (pupd p2 rootX rootY, rk)
  else (pupd p2 rootY rootX, pupd rk rootX (rk rootX + 1))

/-- get_unique_nodes_inds (multi_patch_b_spline.py lines 36-45):
parent = arange(nb_nodes); rank = zeros; union every couple; then
collect find(parent, i) for i in range(nb_nodes) (each find keeps
compressing the evolving parent array). -/
def get_unique_nodes_inds (nodes_couples : List (Nat × Nat)) (nb_nodes : Nat) :
    List Nat :=
  let st := nodes_couples.foldl
    (fun (st : (Nat → Nat) × (Nat → Nat)) ab => unionF nb_nodes st.1 st.2 ab.1 ab.2)
    (fun i => i, fun _ => 0)
  ((List.range nb_nodes).foldl
    (fun (acc : (Nat → Nat) × List Nat) i =>
      let f := findF nb_nodes acc.1 i
      (f.1, acc.2 ++ [f.2]))
    (st.1, [])).2

/-- Ordered insertion, the auxiliary step of sorting a list. -/
def insertSorted {α : Type} [LinearOrder α] (a : α) : List α → List α
  | [] => [a]
  | b :: l => if a ≤ b then a :: b :: l else b :: insertSorted a l

/-- Insertion sort; models the sorting performed by np.unique. -/
def sortList {α : Type} [LinearOrder α] (l : List α) : List α :=
  l.foldr insertSorted []

/-- np.unique of a 1-d array: its distinct values in increasing order. -/
def npUnique {α : Type} [LinearOrder α] [DecidableEq α] (l : List α) : List α :=
  (sortList l).dedup

/-- np.diff of a 1-d array: consecutive differences. -/
def npDiff : List ℤ → List ℤ
  | a :: b :: l => (b - a) :: npDiff (b :: l)
  | _ => []

/-- np.cumsum of a 1-d array: inclusive prefix sums. -/
def npCumsum : List ℤ → List ℤ
  | [] => []
  | a :: l => a :: (npCumsum l).map (fun s => a + s)

/-- The canonicalization step of from_nodes_couples
(multi_patch_b_spline.py lines 117-118):
different, inverse = np.unique(roots, return_inverse=True);
roots -= np.cumsum(np.diff(np.concatenate(([-1], different))) - 1)[inverse].
inverse[i] is the position of roots[i] among the sorted distinct roots. -/
def canonicalize (roots : List Nat) : List ℤ :=
  let u := npUnique roots
  let corr := npCumsum ((npDiff ((-1) :: u.map Int.ofNat)).map (fun d => d - 1))
  roots.map (fun (v : Nat) => (v : ℤ) - corr.getD (List.indexOf v u) 0)

/-- The MultiPatchBSplineConnectivity data (multi_patch_b_spline.py lines
47-95): the stored fields unique_nodes_inds, shape_by_patch and
nb_unique_nodes; nb_nodes, nb_patchs and npa are derived below. -/
structure Conn where
  unique_nodes_inds : List ℤ
  shape_by_patch : List (List Nat)
  nb_unique_nodes : Nat
deriving DecidableEq

/-- nb_nodes = np.sum(np.prod(shape_by_patch, axis=1)) (line 93). -/
def Conn.nb_nodes (c : Conn) : Nat :=
  (c.shape_by_patch.map (fun s => s.prod)).sum

/-- nb_patchs = shape_by_patch.shape[0] (line 95). -/
def Conn.nb_patchs (c : Conn) : Nat :=
  c.shape_by_patch.length

/-- npa = shape_by_patch.shape[1] (line 95); shape_by_patch is a
rectangular 2-d numpy array, so every row has this length. -/
def Conn.npa (c : Conn) : Nat :=
  (c.shape_by_patch.headD []).length

/-- MultiPatchBSplineConnectivity.from_nodes_couples
(multi_patch_b_spline.py lines 97-120): run the union-find over
nb_nodes = Σ prod(shape_by_patch) elements, canonicalize the root
labels, and set nb_unique_nodes = np.unique(unique_nodes_inds).size. -/
def from_nodes_couples (nodes_couples : List (Nat × Nat))
    (shape_by_patch : List (List Nat)) : Conn :=
  let nb_nodes := (shape_by_patch.map (fun s => s.prod)).sum
  let inds := canonicalize (get_unique_nodes_inds nodes_couples nb_nodes)
  ⟨inds, shape_by_patch, (npUnique inds).length⟩

/-- unpack (multi_patch_b_spline.py lines 173-190):
unpacked_field = unique_field[..., unique_nodes_inds].  The list is
indexed along the node axis, one fibre of leading field axes per entry;
dflt is the (never read, when every index is in range) out-of-range
default of the embedding. -/
def Conn.unpack {α : Type} (c : Conn) (unique_field : List α) (dflt : α) : List α :=
  c.unique_nodes_inds.map (fun j => unique_field.getD j.toNat dflt)

/-- pack with method='first' (multi_patch_b_spline.py lines 224-227):
unique_field = np.zeros((*field_shape, nb_unique_nodes));
unique_field[..., unique_nodes_inds[::-1]] = unpacked_field[..., ::-1].
numpy fancy-index assignment writes the listed positions in order, later
writes overwriting earlier ones; zero is the zero fibre np.zeros makes.
(The method='mean' arm of pack is not modelled; no claim refers to it.) -/
def Conn.packFirst {α : Type} (c : Conn) (zero : α) (unpacked_field : List α) :
    List α :=
  ((c.unique_nodes_inds.map Int.toNat).reverse.zip unpacked_field.reverse).foldl
    (fun l jv => l.set jv.1 jv.2)
    (List.replicate c.nb_unique_nodes zero)

/-- Splitting a flat list into consecutive chunks of the given sizes;
the slices x[..., ind:next_ind] taken by separate. -/
def chunks {α : Type} : List Nat → List α → List (List α)
  | [], _ => []
  | s :: rest, x => x.take s :: chunks rest (x.drop s)

/-- separate (multi_patch_b_spline.py lines 237-260): cut the unpacked
node axis into one block of prod(patch_shape) slots per patch.  The
numpy reshape of each block to the patch grid is a row-major view that
keeps the flat data unchanged, so each patch's block is kept flat. -/
def Conn.separate {α : Type} (c : Conn) (unpacked_field : List α) : List (List α) :=
  chunks (c.shape_by_patch.map (fun s => s.prod)) unpacked_field

/-- agglomerate (multi_patch_b_spline.py lines 262-281): reshape every
patch block back to (field shape, -1) - the same row-major flat data -
and concatenate along the node axis. -/
def Conn.agglomerate {α : Type} (_c : Conn) (separated_field : List (List α)) :
    List α :=
  separated_field.flatten

/-- get_duplicate_unpacked_nodes_mask (multi_patch_b_spline.py lines
318-322): unique, inverse, counts = np.unique(unique_nodes_inds,
return_inverse=True, return_counts=True); the mask is True exactly where
counts[inverse] > 1, i.e. at every unpacked slot whose unique node index
occurs more than once. -/
def Conn.get_duplicate_unpacked_nodes_mask (c : Conn) : List Bool :=
  let u := npUnique c.unique_nodes_inds
  let counts := u.map (fun w => c.unique_nodes_inds.count w)
  c.unique_nodes_inds.map (fun v => decide (1 < counts.getD (u.indexOf v) 0))

/-- All coordinate tuples of a grid of the given shape, in row-major
(C) order; the index space of a reshaped patch block. -/
def gridCoords : List Nat → List (List Nat)
  | [] => [[]]
  | s :: rest => (List.range s).flatMap (fun k => (gridCoords rest).map (fun c => k :: c))

/-- Row-major flat index of a coordinate tuple in a grid of the given
shape: the position its entry occupies in the reshaped 1-d block. -/
def flatIdx : List Nat → List Nat → Nat
  | _ :: srest, k :: crest => k * srest.prod + flatIdx srest crest
  | _, _ => 0

/-- Start of patch i's block in the unpacked numbering: the sum of the
grid sizes of the previous patches (the running ind of separate). -/
def Conn.patchOffset (c : Conn) (i : Nat) : Nat :=
  ((c.shape_by_patch.take i).map (fun s => s.prod)).sum

/-- The test np.take(duplicate_nodes_mask_spline, 0 or -1, axis).all()
of extract_exterior_borders / extract_interior_borders
(multi_patch_b_spline.py lines 343/351/387/395): every node of the
extremal grid slice of patch i along the axis (side = false for index 0,
true for index -1) is marked duplicate. -/
def Conn.sliceAllDup (c : Conn) (i axis : Nat) (side : Bool) : Bool :=
  let s := c.shape_by_patch.getD i []
  let mask := c.get_duplicate_unpacked_nodes_mask
  (gridCoords s).all (fun coords =>
    if coords.getD axis 0 = (if side then s.getD axis 1 - 1 else 0) then
      mask.getD (c.patchOffset i + flatIdx s coords) false
    else true)

/-- The slice-selection logic of extract_exterior_borders
(multi_patch_b_spline.py lines 324-366): for every patch and axis, the
side-0 slice and then the side(-1) slice is emitted iff NOT all of its
nodes are duplicates.  Only the (patch, axis, side) selection is
modelled; the assembly of the border splines and of the re-canonicalized
border connectivity from the selected slices is not needed by any claim.
Returns none when npa <= 1 (the AssertionError of line 326). -/
def Conn.extract_exterior_borders (c : Conn) : Option (List (Nat × Nat × Bool)) :=
  if c.npa ≤ 1 then none else
  some ((List.range c.nb_patchs).flatMap (fun i =>
    (List.range c.npa).flatMap (fun axis =>
      (if ¬ c.sliceAllDup i axis false then [(i, axis, false)] else []) ++
      (if ¬ c.sliceAllDup i axis true then [(i, axis, true)] else []))))

/-- The slice-selection logic of extract_interior_borders
(multi_patch_b_spline.py lines 368-410): identical to the exterior case
except that a slice is emitted iff ALL of its nodes are duplicates. -/
def Conn.extract_interior_borders (c : Conn) : Option (List (Nat × Nat × Bool)) :=
  if c.npa ≤ 1 then none else
  some ((List.range c.nb_patchs).flatMap (fun i =>
    (List.range c.npa).flatMap (fun axis =>
      (if c.sliceAllDup i axis false then [(i, axis, false)] else []) ++
      (if c.sliceAllDup i axis true then [(i, axis, true)] else []))))

/-- The specification's wording of the border test, stated independently
of the mask pipeline: every slot of the extremal grid slice of patch i
along the axis (side false = index 0, true = index -1) has its unique
node shared by at least 2 unpacked slots. -/
def Conn.SliceFullyDuplicated (c : Conn) (i axis : Nat) (side : Bool) : Prop :=
  ∀ coords ∈ gridCoords (c.shape_by_patch.getD i []),
    coords.getD axis 0
        = (if side then (c.shape_by_patch.getD i []).getD axis 1 - 1 else 0) →
      1 < c.unique_nodes_inds.count
        (c.unique_nodes_inds.getD
          (c.patchOffset i + flatIdx (c.shape_by_patch.getD i []) coords) 0)

/-- A numpy float ndarray: a shape and the flat row-major data, with
rationals standing for the floats. -/
structure NDArr where
  shape : List Nat
  data : List ℚ
deriving DecidableEq

/-- Entry of an ndarray at a coordinate tuple. -/
def NDArr.at (A : NDArr) (c : List Nat) : ℚ :=
  A.data.getD (flatIdx A.shape c) 0

/-- np.transpose(A, axes): result coordinate tuple c reads the entry of
A whose coordinate along axis axes[k] is c[k]. -/
def NDArr.transposeA (A : NDArr) (axes : List Nat) : NDArr :=
  let newShape := axes.map (fun j => A.shape.getD j 0)
  ⟨newShape,
    (gridCoords newShape).map (fun c =>
      A.at ((List.range A.shape.length).map (fun j => c.getD (axes.indexOf j) 0)))⟩

/-- A[k] on the first axis (also np.take(A, k, axis=0)). -/
def NDArr.takeFirst (A : NDArr) (k : Nat) : NDArr :=
  ⟨A.shape.drop 1, (gridCoords (A.shape.drop 1)).map (fun c => A.at (k :: c))⟩

/-- np.flip(A, axis): reverse the coordinates along one axis. -/
def NDArr.flipAxis (A : NDArr) (axis : Nat) : NDArr :=
  ⟨A.shape,
    (gridCoords A.shape).map (fun c =>
      A.at (c.set axis (A.shape.getD axis 0 - 1 - c.getD axis 0)))⟩

/-- CouplesBSplineBorder.extract_border_pts (multi_patch_b_spline.py
lines 592-599): base_face = hstack((arange(axis+1, npa), arange(axis))),
reversed when front_side is False; transpose the field to
(axis + field_dim, field axes, base_face + field_dim) and index the
first axis at -(1+offset) (front) or offset (back). -/
def extract_border_pts (field : NDArr) (axis : Nat) (front_side : Bool)
    (field_dim : Nat) (offset : Nat) : NDArr :=
  let npa := field.shape.length - field_dim
  let bf0 := List.range' (axis + 1) (npa - (axis + 1)) ++ List.range axis
  let base_face := if front_side then bf0 else bf0.reverse
  let axes := (axis + field_dim) :: (List.range field_dim ++ base_face.map (fun j => j + field_dim))
  let T := field.transposeA axes
  T.takeFirst (if front_side then T.shape.getD 0 0 - 1 - offset else offset)

/-- CouplesBSplineBorder.transpose_and_flip (multi_patch_b_spline.py
lines 613-619): permute the non-field axes by transpose, then flip
axis i + field_dim for every i with flip[i]. -/
def transpose_and_flip (field : NDArr) (tr : List Nat) (flip : List Bool)
    (field_dim : Nat) : NDArr :=
  let T := field.transposeA (List.range field_dim ++ tr.map (fun j => j + field_dim))
  (List.range flip.length).foldl
    (fun B i => if flip.getD i false then B.flipAxis (i + field_dim) else B) T

/-- CouplesBSplineBorder.transpose_and_flip_knots (multi_patch_b_spline.py
lines 621-629): new_knots[i] = sum(spans[i]) - knots[transpose[i]][::-1]
when flip[i], else knots[transpose[i]]. -/
def transpose_and_flip_knots (knots : List (List ℚ)) (spans : List (ℚ × ℚ))
    (tr : List Nat) (flip : List Bool) : List (List ℚ) :=
  (List.range flip.length).map (fun i =>
    if flip.getD i false then
      (knots.getD (tr.getD i 0) []).reverse.map
        (fun k => (spans.getD i (0, 0)).1 + (spans.getD i (0, 0)).2 - k)
    else knots.getD (tr.getD i 0) [])

/-- Modelled from the spec's wording of the knot-flip step (claim C6):
the i-th output knot vector is knots[transpose[i]], reflected - when
flip[i] - about ITS OWN domain span, i.e. about spans[transpose[i]].
This is the claimed behaviour, to be compared with the source's
transpose_and_flip_knots, which uses spans[i] instead. -/
def transpose_and_flip_knots_claimed (knots : List (List ℚ)) (spans : List (ℚ × ℚ))
    (tr : List Nat) (flip : List Bool) : List (List ℚ) :=
  (List.range flip.length).map (fun i =>
    if flip.getD i false then
      (knots.getD (tr.getD i 0) []).reverse.map
        (fun k => (spans.getD (tr.getD i 0) (0, 0)).1
          + (spans.getD (tr.getD i 0) (0, 0)).2 - k)
    else knots.getD (tr.getD i 0) [])

/-- np.allclose with the default tolerances rtol=1e-5, atol=1e-8, taken
as exact rational constants; shapes are required equal (they always are
at the single call site, by the earlier shape check). -/
def allclose (a b : NDArr) : Bool :=
  decide (a.shape = b.shape) &&
  (gridCoords a.shape).all (fun c =>
    decide (|a.at c - b.at c| ≤ 1 / 100000000 + 1 / 100000 * |b.at c|))

/-- The per-patch data from_splines reads through the external spline
collaborator: getDegrees(), getKnots(), getSpans() (spec section 6). -/
structure Patch where
  degrees : List Nat
  knots : List (List ℚ)
  spans : List (ℚ × ℚ)
deriving DecidableEq

/-- Parametric dimension of a patch (spline.NPa). -/
def Patch.NPa (sp : Patch) : Nat := sp.degrees.length

/-- One correspondence record of CouplesBSplineBorder: the per-match
entries appended to spline1_inds, spline2_inds, axes1, axes2,
front_sides1, front_sides2, transpose_2_to_1, flip_2_to_1. -/
structure BorderCouple where
  sp1 : Nat
  sp2 : Nat
  axis1 : Nat
  axis2 : Nat
  front1 : Bool
  front2 : Bool
  tr : List Nat
  flip : List Bool
deriving DecidableEq

/-- all_flip (multi_patch_b_spline.py line 657): the 2^(NPa-1) boolean
vectors of length NPa-1, as the bits of 0..2^(NPa-1)-1 unpacked
little-endian and then reversed, i.e. v's vector lists the bits of v
from most to least significant. -/
def allFlip (m : Nat) : List (List Bool) :=
  (List.range (2 ^ m)).map (fun v => (List.range m).map (fun k => v.testBit (m - 1 - k)))

/-- Auxiliary recursion for permsLex, structural on a fuel that is kept
equal to the list length. -/
def permsAux : Nat → List Nat → List (List Nat)
  | 0, _ => [[]]
  | fuel + 1, l =>
      (List.range l.length).flatMap
        (fun i => (permsAux fuel (l.eraseIdx i)).map (fun q => l.getD i 0 :: q))

/-- all_transpose (multi_patch_b_spline.py line 658): the permutations
of a list in itertools.permutations order (first element chosen by
increasing position, rest recursively). -/
def permsLex (l : List Nat) : List (List Nat) :=
  permsAux l.length l

/-- Rotation deg[axis+1:] ++ deg[:axis] used for the boundary-axis data
(multi_patch_b_spline.py lines 676-682). -/
def rotAxes {α : Type} (l : List α) (axis : Nat) : List α :=
  l.drop (axis + 1) ++ l.take axis

/-- The five checks of the correspondence search, in source order
(multi_patch_b_spline.py lines 692-703), for a candidate
(patch pair, axis pair, side pair, transpose, flip). -/
def checksPass (ctrl_pts : List NDArr) (splines : List Patch)
    (i1 i2 axis1 axis2 : Nat) (front1 front2 : Bool)
    (tr : List Nat) (flip : List Bool) : Bool :=
  let sp1 := splines.getD i1 ⟨[], [], []⟩
  let sp2 := splines.getD i2 ⟨[], [], []⟩
  let NPa := (splines.headD ⟨[], [], []⟩).NPa
  let degrees1 := rotAxes sp1.degrees axis1
  let knots1 := rotAxes sp1.knots axis1
  let degrees2 := rotAxes sp2.degrees axis2
  let knots2 := rotAxes sp2.knots axis2
  let spans2 := rotAxes sp2.spans axis2
  let pts1 := extract_border_pts (ctrl_pts.getD i1 ⟨[], []⟩) axis1 front1 1 0
  let pts2 := extract_border_pts (ctrl_pts.getD i2 ⟨[], []⟩) axis2 front2 1 0
  decide (degrees1 = tr.map (fun i => degrees2.getD i 0)) &&
  decide (pts1.shape.drop 1 = tr.map (fun i => (pts2.shape.drop 1).getD i 0)) &&
  (List.range (NPa - 1)).all
    (fun i => (knots1.getD i []).length = (knots2.getD (tr.getD i 0) []).length) &&
  (knots1.zip (transpose_and_flip_knots knots2 spans2 tr flip)).all
    (fun kk => decide (kk.1 = kk.2)) &&
  allclose pts1 (transpose_and_flip pts2 tr flip 1)

/-- CouplesBSplineBorder.from_splines (multi_patch_b_spline.py lines
650-721): for every pair i1 < i2 of patches, every axis pair, every
side pair, every transpose in all_transpose and every flip in all_flip,
append one correspondence record whenever all five checks pass; the
loops never break, so every passing combination is recorded, in loop
order.  (The NPa/NPh equality asserts of lines 653-655 are the caller's
precondition and are not modelled.) -/
def from_splines (ctrl_pts : List NDArr) (splines : List Patch) :
    List BorderCouple :=
  let NPa := (splines.headD ⟨[], [], []⟩).NPa
  let npatch := splines.length
  let all_flip := allFlip (NPa - 1)
  let all_transpose := permsLex (List.range (NPa - 1))
  (List.range npatch).flatMap (fun i1 =>
    (List.range' (i1 + 1) (npatch - (i1 + 1))).flatMap (fun i2 =>
      (List.range (splines.getD i1 ⟨[], [], []⟩).NPa).flatMap (fun axis1 =>
        (List.range (splines.getD i2 ⟨[], [], []⟩).NPa).flatMap (fun axis2 =>
          [false, true].flatMap (fun front1 =>
            [false, true].flatMap (fun front2 =>
              all_transpose.flatMap (fun tr =>
                all_flip.flatMap (fun flip =>
                  if checksPass ctrl_pts splines i1 i2 axis1 axis2 front1 front2 tr flip
                  then [⟨i1, i2, axis1, axis2, front1, front2, tr, flip⟩]
                  else []))))))))

/-! ### Properties of the sorting and canonicalization pipeline -/

theorem mem_insertSorted {α : Type} [LinearOrder α] (a b : α) (l : List α) :
    b ∈ insertSorted a l ↔ b = a ∨ b ∈ l := by
  induction l with
  | nil => simp [insertSorted]
  | cons c l ih =>
      by_cases h : a ≤ c
      · simp [insertSorted, h]
      · simp only [insertSorted, if_neg h, List.mem_cons, ih]
        tauto

theorem sorted_insertSorted {α : Type} [LinearOrder α] (a : α) (l : List α)
    (h : l.Sorted (· ≤ ·)) : (insertSorted a l).Sorted (· ≤ ·) := by
  induction l with
  | nil => simp [insertSorted]
  | cons c l ih =>
      rw [List.sorted_cons] at h
      by_cases hac : a ≤ c
      · rw [insertSorted, if_pos hac, List.sorted_cons]
        refine ⟨?_, by rw [List.sorted_cons]; exact h⟩
        intro b hb
        rcases List.mem_cons.mp hb with hb | hb
        · exact hb ▸ hac
        · exact le_trans hac (h.1 b hb)
      · rw [insertSorted, if_neg hac, List.sorted_cons]
        refine ⟨?_, ih h.2⟩
        intro b hb
        rcases (mem_insertSorted a b l).mp hb with hb | hb
        · exact hb ▸ le_of_not_le hac
        · exact h.1 b hb

theorem mem_sortList {α : Type} [LinearOrder α] (b : α) (l : List α) :
    b ∈ sortList l ↔ b ∈ l := by
  induction l with
  | nil => simp [sortList]
  | cons a l ih =>
      simp only [sortList, List.foldr_cons, List.mem_cons]
      rw [show l.foldr insertSorted [] = sortList l from rfl] at *
      rw [mem_insertSorted, ih]

theorem sorted_sortList {α : Type} [LinearOrder α] (l : List α) :
    (sortList l).Sorted (· ≤ ·) := by
  induction l with
  | nil => simp [sortList]
  | cons a l ih => exact sorted_insertSorted a (sortList l) ih

theorem sortList_of_sorted {α : Type} [LinearOrder α] (l : List α)
    (h : l.Sorted (· ≤ ·)) : sortList l = l := by
  induction l with
  | nil => rfl
  | cons a l ih =>
      rw [List.sorted_cons] at h
      have hl : sortList (a :: l) = insertSorted a (sortList l) := rfl
      rw [hl, ih h.2]
      cases l with
      | nil => rfl
      | cons b l => exact if_pos (h.1 b (List.mem_cons_self b l))

theorem nodup_npUnique {α : Type} [LinearOrder α] [DecidableEq α] (l : List α) :
    (npUnique l).Nodup :=
  List.nodup_dedup _

theorem mem_npUnique {α : Type} [LinearOrder α] [DecidableEq α] (b : α) (l : List α) :
    b ∈ npUnique l ↔ b ∈ l := by
  rw [npUnique, List.mem_dedup, mem_sortList]

theorem npDiff_length (a : ℤ) (l : List ℤ) : (npDiff (a :: l)).length = l.length := by
  induction l generalizing a with
  | nil => rfl
  | cons b l ih => simpa [npDiff] using ih b

theorem npCumsum_length (l : List ℤ) : (npCumsum l).length = l.length := by
  induction l with
  | nil => rfl
  | cons a l ih => simp [npCumsum, ih]

/-- The telescoping identity behind the canonicalization formula:
entry r of cumsum(diff(a :: l) - 1) is l[r] - a - (r + 1). -/
theorem cumsum_diff_getD (a : ℤ) (l : List ℤ) :
    ∀ r, r < l.length →
      (npCumsum ((npDiff (a :: l)).map (fun d => d - 1))).getD r 0
        = l.getD r 0 - a - (r + 1) := by
  induction l generalizing a with
  | nil => intro r hr; exact absurd hr (by simp)
  | cons b l ih =>
      intro r hr
      have hd : npDiff (a :: b :: l) = (b - a) :: npDiff (b :: l) := rfl
      cases r with
      | zero => simp [hd, npCumsum]
      | succ rr =>
          have hrr : rr < l.length := by simpa using hr
          have hlen : rr < ((npCumsum ((npDiff (b :: l)).map (fun d => d - 1)))).length := by
            rw [npCumsum_length, List.length_map, npDiff_length]; exact hrr
          have hmap :
              ((npCumsum ((npDiff (b :: l)).map (fun d => d - 1))).map
                (fun s => (b - a - 1) + s)).getD rr 0
                = (b - a - 1) + (npCumsum ((npDiff (b :: l)).map (fun d => d - 1))).getD rr 0 := by
            rw [List.getD_eq_getElem _ _ (by simpa using hlen),
              List.getD_eq_getElem _ _ hlen, List.getElem_map]
          have := ih b rr hrr
          simp only [hd, List.map_cons, npCumsum, List.getD_cons_succ, hmap, this]
          push_cast
          ring

/-- The canonicalization step relabels every root by its position among
the sorted distinct roots. -/
theorem canonicalize_eq_indexOf (xs : List Nat) :
    canonicalize xs = xs.map (fun v => ((npUnique xs).indexOf v : ℤ)) := by
  simp only [canonicalize]
  apply List.map_congr_left
  intro v hv
  set u := npUnique xs with hu
  have hvu : v ∈ u := (mem_npUnique v xs).mpr hv
  have hr : u.indexOf v < u.length := List.indexOf_lt_length.mpr hvu
  have hrm : u.indexOf v < (u.map Int.ofNat).length := by simpa using hr
  have htel := cumsum_diff_getD (-1) (u.map Int.ofNat) (u.indexOf v) hrm
  have hval : (u.map Int.ofNat).getD (u.indexOf v) 0 = (v : ℤ) := by
    rw [List.getD_eq_getElem _ _ hrm, List.getElem_map]
    have : u[u.indexOf v] = v := List.getElem_indexOf hr
    rw [this]; rfl
  rw [htel, hval]
  ring

/-- The distinct values of the canonicalized labels are exactly
0..(number of distinct roots)-1. -/
theorem mem_canonicalize (xs : List Nat) (q : ℤ) :
    q ∈ canonicalize xs ↔ 0 ≤ q ∧ q < (npUnique xs).length := by
  rw [canonicalize_eq_indexOf, List.mem_map]
  constructor
  · rintro ⟨v, hv, rfl⟩
    have hvu : v ∈ npUnique xs := (mem_npUnique v xs).mpr hv
    have hr : (npUnique xs).indexOf v < (npUnique xs).length :=
      List.indexOf_lt_length.mpr hvu
    exact ⟨Int.natCast_nonneg _, by exact_mod_cast hr⟩
  · rintro ⟨hq0, hqK⟩
    obtain ⟨r, rfl⟩ := Int.eq_ofNat_of_zero_le hq0
    have hrK : r < (npUnique xs).length := by exact_mod_cast hqK
    refine ⟨(npUnique xs)[r], ?_, ?_⟩
    · exact (mem_npUnique _ xs).mp (List.getElem_mem hrK)
    · rw [List.indexOf_getElem (nodup_npUnique xs) r hrK]

/-- Canonicalizing does not change the number of distinct values. -/
theorem length_npUnique_canonicalize (xs : List Nat) :
    (npUnique (canonicalize xs)).length = (npUnique xs).length := by
  set K := (npUnique xs).length with hK
  have hnd : (npUnique (canonicalize xs)).Nodup := nodup_npUnique _
  have hmem : ∀ q : ℤ, q ∈ npUnique (canonicalize xs) ↔ 0 ≤ q ∧ q < K := by
    intro q; rw [mem_npUnique, mem_canonicalize]
  have hfin : (npUnique (canonicalize xs)).toFinset = Finset.Ico (0 : ℤ) K := by
    ext q
    rw [List.mem_toFinset, hmem, Finset.mem_Ico]
  have := List.toFinset_card_of_nodup hnd
  rw [hfin] at this
  rw [← this, Int.card_Ico]
  omega

/-! ### from_nodes_couples: canonical surjection and the empty case -/

theorem findF_id (fuel x : Nat) : findF fuel (fun i => i) x = ((fun i => i), x) := by
  cases fuel with
  | zero => rfl
  | succ f => simp [findF]

theorem get_unique_nodes_inds_nil (n : Nat) :
    get_unique_nodes_inds [] n = List.range n := by
  have hloop : ∀ (l : List Nat) (acc : List Nat),
      (l.foldl (fun (acc : (Nat → Nat) × List Nat) i =>
        let f := findF n acc.1 i
        (f.1, acc.2 ++ [f.2])) ((fun i => i), acc)).2 = acc ++ l := by
    intro l
    induction l with
    | nil => intro acc; simp
    | cons i l ih =>
        intro acc
        simp only [List.foldl_cons, findF_id]
        rw [ih (acc ++ [i])]
        simp
  simpa [get_unique_nodes_inds] using hloop (List.range n) []

theorem npUnique_range (n : Nat) : npUnique (List.range n) = List.range n := by
  rw [npUnique, sortList_of_sorted]
  · exact List.dedup_eq_self.mpr (List.nodup_range n)
  · exact List.Pairwise.imp le_of_lt (List.sorted_lt_range n)

theorem canonicalize_range (n : Nat) :
    canonicalize (List.range n) = (List.range n).map Int.ofNat := by
  rw [canonicalize_eq_indexOf, npUnique_range]
  apply List.map_congr_left
  intro v hv
  have hvn : v < n := List.mem_range.mp hv
  have h1 := List.indexOf_getElem (List.nodup_range n) v (by simpa using hvn)
  rw [List.getElem_range] at h1
  rw [h1]
  rfl

/-- C10: from_nodes_couples applied to an empty list of couples gives the
identity connectivity: unique_nodes_inds = [0, 1, ..., nb_nodes-1] and
nb_unique_nodes = nb_nodes, for any shape_by_patch. -/
theorem from_nodes_couples_empty_is_identity (shape_by_patch : List (List Nat)) :
    (from_nodes_couples [] shape_by_patch).unique_nodes_inds
      = (List.range ((shape_by_patch.map (fun s => s.prod)).sum)).map Int.ofNat
    ∧ (from_nodes_couples [] shape_by_patch).nb_unique_nodes
      = (shape_by_patch.map (fun s => s.prod)).sum
    ∧ (from_nodes_couples [] shape_by_patch).nb_unique_nodes
      = (from_nodes_couples [] shape_by_patch).nb_nodes := by
  have h1 : (from_nodes_couples [] shape_by_patch).unique_nodes_inds
      = canonicalize (get_unique_nodes_inds []
          ((shape_by_patch.map (fun s => s.prod)).sum)) := rfl
  have h2 : (from_nodes_couples [] shape_by_patch).nb_unique_nodes
      = (npUnique (canonicalize (get_unique_nodes_inds []
          ((shape_by_patch.map (fun s => s.prod)).sum)))).length := rfl
  have h3 : (from_nodes_couples [] shape_by_patch).nb_nodes
      = (shape_by_patch.map (fun s => s.prod)).sum := rfl
  refine ⟨?_, ?_, ?_⟩
  · rw [h1, get_unique_nodes_inds_nil, canonicalize_range]
  · rw [h2, get_unique_nodes_inds_nil, length_npUnique_canonicalize,
      npUnique_range, List.length_range]
  · rw [h2, h3, get_unique_nodes_inds_nil, length_npUnique_canonicalize,
      npUnique_range, List.length_range]

/-- C1: for every Connectivity returned by from_nodes_couples (couples
indices all below nb_nodes), the set of distinct values occurring in
unique_nodes_inds is exactly 0..nb_unique_nodes-1, with no gaps. -/
theorem from_nodes_couples_canonical_surjection
    (nodes_couples : List (Nat × Nat)) (shape_by_patch : List (List Nat))
    (hrange : ∀ pr ∈ nodes_couples,
      pr.1 < (shape_by_patch.map (fun s => s.prod)).sum ∧
      pr.2 < (shape_by_patch.map (fun s => s.prod)).sum) :
    ∀ q : ℤ,
      q ∈ (from_nodes_couples nodes_couples shape_by_patch).unique_nodes_inds
        ↔ 0 ≤ q ∧
          (q : ℤ) < (from_nodes_couples nodes_couples shape_by_patch).nb_unique_nodes := by
  have h1 : (from_nodes_couples nodes_couples shape_by_patch).unique_nodes_inds
      = canonicalize (get_unique_nodes_inds nodes_couples
          ((shape_by_patch.map (fun s => s.prod)).sum)) := rfl
  have h2 : (from_nodes_couples nodes_couples shape_by_patch).nb_unique_nodes
      = (npUnique (canonicalize (get_unique_nodes_inds nodes_couples
          ((shape_by_patch.map (fun s => s.prod)).sum)))).length := rfl
  intro q
  rw [h1, h2, mem_canonicalize, length_npUnique_canonicalize]

/-- Concrete instantiation of the C1 theorem: couples [(0,1)] on shapes
[[2],[1]] (3 unpacked nodes, 2 unique ones). -/
theorem from_nodes_couples_canonical_surjection_witness :
    (∀ pr ∈ [((0 : Nat), (1 : Nat))],
      pr.1 < (([[2], [1]] : List (List Nat)).map (fun s => s.prod)).sum ∧
      pr.2 < (([[2], [1]] : List (List Nat)).map (fun s => s.prod)).sum) ∧
    ∀ q : ℤ,
      q ∈ (from_nodes_couples [(0, 1)] [[2], [1]]).unique_nodes_inds
        ↔ 0 ≤ q ∧
          (q : ℤ) < (from_nodes_couples [(0, 1)] [[2], [1]]).nb_unique_nodes :=
  ⟨by decide, from_nodes_couples_canonical_surjection [(0, 1)] [[2], [1]] (by decide)⟩

/-! ### Correctness of the union-find merger -/

/-- n-fold parent iteration; on a valid parent forest of n nodes this is
the root of the chain starting at x, since chains are shorter than n and
iterating past the root is harmless. -/
def rootN (n : Nat) (p : Nat → Nat) (x : Nat) : Nat := p^[n] x

/-- Validity of a parent map for n nodes: [0, n) maps into itself, the
rest is fixed, and every chain reaches a fixpoint. -/
def ParentInv (n : Nat) (p : Nat → Nat) : Prop :=
  (∀ x, x < n → p x < n) ∧ (∀ x, ¬ x < n → p x = x) ∧
  (∀ x, ∃ k, p (p^[k] x) = p^[k] x)

theorem parentInv_id (n : Nat) : ParentInv n (fun i => i) :=
  ⟨fun _ h => h, fun _ _ => rfl, fun _ => ⟨0, rfl⟩⟩

theorem rootN_eq_of_reach {n : Nat} {p : Nat → Nat} {x r : Nat} {k : Nat}
    (hk : k ≤ n) (hreach : p^[k] x = r) (hr : p r = r) : rootN n p x = r := by
  have h1 : p^[n] x = p^[n - k] (p^[k] x) := by
    rw [← Function.iterate_add_apply]
    congr 1
    omega
  rw [rootN, h1, hreach, Function.iterate_fixed hr]

theorem ParentInv.iterate_lt {n : Nat} {p : Nat → Nat} (h : ParentInv n p)
    {x : Nat} (hx : x < n) : ∀ k, p^[k] x < n := by
  intro k
  induction k with
  | zero => exact hx
  | succ k ih => rw [Function.iterate_succ_apply']; exact h.1 _ ih

/-- Stabilization depth of the chain of x: the least k with
p^[k+1] x = p^[k] x. -/
def dep (p : Nat → Nat) (x : Nat) (h : ∃ k, p (p^[k] x) = p^[k] x) : Nat :=
  Nat.find h

theorem dep_spec {p : Nat → Nat} {x : Nat} (h : ∃ k, p (p^[k] x) = p^[k] x) :
    p (p^[dep p x h] x) = p^[dep p x h] x := Nat.find_spec h

theorem dep_min {p : Nat → Nat} {x : Nat} (h : ∃ k, p (p^[k] x) = p^[k] x)
    {k : Nat} (hk : k < dep p x h) : p (p^[k] x) ≠ p^[k] x := Nat.find_min h hk

theorem dep_shift {p : Nat → Nat} {x : Nat} (h : ∃ k, p (p^[k] x) = p^[k] x)
    (i : Nat) (hile : i ≤ dep p x h)
    (hi : ∃ k, p (p^[k] (p^[i] x)) = p^[k] (p^[i] x)) :
    dep p (p^[i] x) hi = dep p x h - i := by
  rw [dep, Nat.find_eq_iff]
  constructor
  · rw [← Function.iterate_add_apply]
    have he : dep p x h - i + i = dep p x h := by omega
    rw [he]
    exact dep_spec h
  · intro m hm
    rw [← Function.iterate_add_apply]
    exact dep_min h (by omega)

theorem iterate_stable_ge {p : Nat → Nat} {x : Nat} {d : Nat}
    (hd : p (p^[d] x) = p^[d] x) : ∀ m, p^[d + m] x = p^[d] x := by
  intro m
  induction m with
  | zero => rfl
  | succ m ih =>
      rw [show d + (m + 1) = (d + m) + 1 from rfl, Function.iterate_succ_apply', ih, hd]

theorem iterate_stable_of_le {p : Nat → Nat} {x : Nat} {d : Nat}
    (hd : p (p^[d] x) = p^[d] x) {i : Nat} (hi : d ≤ i) : p^[i] x = p^[d] x := by
  have h1 := iterate_stable_ge hd (i - d)
  rwa [show d + (i - d) = i from by omega] at h1

theorem iterate_inj {p : Nat → Nat}
    (hall : ∀ z, ∃ k, p (p^[k] z) = p^[k] z) {x : Nat}
    {i j : Nat} (hi : i ≤ dep p x (hall x)) (hj : j ≤ dep p x (hall x))
    (hij : p^[i] x = p^[j] x) : i = j := by
  have h1 := dep_shift (hall x) i hi (hall _)
  have h2 := dep_shift (hall x) j hj (hall _)
  have h3 : dep p (p^[i] x) (hall _) = dep p (p^[j] x) (hall _) := by
    congr 1
  rw [h1, h2] at h3
  omega

theorem dep_lt {n : Nat} {p : Nat → Nat} (hp : ParentInv n p) {x : Nat}
    (hx : x < n) : dep p x (hp.2.2 x) < n := by
  set d := dep p x (hp.2.2 x) with hd
  have hinj : Function.Injective
      (fun i : Fin (d + 1) => (⟨p^[i.1] x, hp.iterate_lt hx i.1⟩ : Fin n)) := by
    intro i j hij
    have h1 : p^[i.1] x = p^[j.1] x := congrArg Fin.val hij
    exact Fin.ext (iterate_inj hp.2.2 (by omega) (by omega) h1)
  have hcard := Fintype.card_le_of_injective _ hinj
  simp only [Fintype.card_fin] at hcard
  omega

theorem rootN_spec {n : Nat} {p : Nat → Nat} (hp : ParentInv n p) {x : Nat}
    (hx : x < n) : p^[dep p x (hp.2.2 x)] x = rootN n p x :=
  (rootN_eq_of_reach (le_of_lt (dep_lt hp hx)) rfl (dep_spec _)).symm

theorem rootN_isRoot {n : Nat} {p : Nat → Nat} (hp : ParentInv n p) (x : Nat) :
    p (rootN n p x) = rootN n p x := by
  by_cases hx : x < n
  · rw [← rootN_spec hp hx]
    exact dep_spec _
  · have h1 : p x = x := hp.2.1 x hx
    have h2 : rootN n p x = x := Function.iterate_fixed h1 n
    rw [h2]
    exact h1

theorem rootN_lt {n : Nat} {p : Nat → Nat} (hp : ParentInv n p) {x : Nat}
    (hx : x < n) : rootN n p x < n :=
  hp.iterate_lt hx n

theorem rootN_of_root {n : Nat} {p : Nat → Nat} {r : Nat} (hr : p r = r) :
    rootN n p r = r :=
  Function.iterate_fixed hr n

theorem root_of_rootN_eq {n : Nat} {p : Nat → Nat} (hp : ParentInv n p)
    {z : Nat} (h : rootN n p z = z) : p z = z := by
  by_cases hz : z < n
  · have h1 : p^[dep p z (hp.2.2 z)] z = p^[0] z := by
      rw [← rootN_spec hp hz] at h
      simpa using h
    have h2 : dep p z (hp.2.2 z) = 0 :=
      iterate_inj hp.2.2 (le_refl _) (Nat.zero_le _) h1
    have h3 := dep_spec (hp.2.2 z)
    rw [h2] at h3
    simpa using h3
  · exact hp.2.1 z hz

theorem rootN_iterate {n : Nat} {p : Nat → Nat} (hp : ParentInv n p)
    (z : Nat) (k : Nat) : rootN n p (p^[k] z) = rootN n p z := by
  have h1 : rootN n p (p^[k] z) = p^[k] (rootN n p z) := by
    rw [rootN, rootN, ← Function.iterate_add_apply, Nat.add_comm,
      Function.iterate_add_apply]
  rw [h1, Function.iterate_fixed (rootN_isRoot hp z)]

theorem rootN_parent {n : Nat} {p : Nat → Nat} (hp : ParentInv n p) (z : Nat) :
    rootN n p (p z) = rootN n p z := by
  have h1 := rootN_iterate hp z 1
  simpa using h1

theorem pupd_self {p : Nat → Nat} {y t : Nat} : pupd p y t y = t := if_pos rfl

theorem pupd_other {p : Nat → Nat} {y t z : Nat} (h : z ≠ y) :
    pupd p y t z = p z := if_neg h

/-- Redirecting one node y to a root t: if t is y's current root (path
compression) or y is itself a root (linking two trees), the new forest is
valid and the new root of z is t when z was in y's class, and is
unchanged otherwise. -/
theorem relink {n : Nat} {p : Nat → Nat} (hp : ParentInv n p) {y t : Nat}
    (hy : y < n) (ht : t < n) (htr : p t = t)
    (hcase : t = rootN n p y ∨ p y = y) :
    ParentInv n (pupd p y t) ∧
    ∀ z, rootN n (pupd p y t) z =
      if rootN n p z = rootN n p y then t else rootN n p z := by
  set q := pupd p y t with hq
  have hqt : q t = t := by
    by_cases h : t = y
    · rw [hq, h]; exact pupd_self
    · rw [hq, pupd_other h]; exact htr
  have hagree : ∀ z k, (∀ i, i < k → p^[i] z ≠ y) → q^[k] z = p^[k] z := by
    intro z k
    induction k with
    | zero => intro _; rfl
    | succ k ih =>
        intro hk
        rw [Function.iterate_succ_apply', Function.iterate_succ_apply',
          ih (fun i hi => hk i (by omega))]
        exact pupd_other (hk k (by omega))
  have main : ∀ z, ∃ k, k ≤ n ∧
      q^[k] z = (if rootN n p z = rootN n p y then t else rootN n p z) ∧
      q (if rootN n p z = rootN n p y then t else rootN n p z)
        = (if rootN n p z = rootN n p y then t else rootN n p z) := by
    intro z
    by_cases hz : z < n
    · have hdn : dep p z (hp.2.2 z) < n := dep_lt hp hz
      have hroot_d : p^[dep p z (hp.2.2 z)] z = rootN n p z := rootN_spec hp hz
      by_cases hhit : ∃ i, p^[i] z = y
      · have hk0y : p^[Nat.find hhit] z = y := Nat.find_spec hhit
        have hk0min : ∀ i, i < Nat.find hhit → p^[i] z ≠ y :=
          fun i hi => Nat.find_min hhit hi
        have hk0d : Nat.find hhit ≤ dep p z (hp.2.2 z) := by
          by_contra hgt
          push_neg at hgt
          exact hk0min _ hgt
            (iterate_stable_of_le (dep_spec (hp.2.2 z)) (le_of_lt hgt) ▸ hk0y)
        have hcond : rootN n p z = rootN n p y := by
          rw [← hk0y, rootN_iterate hp z]
        rw [if_pos hcond]
        refine ⟨Nat.find hhit + 1, by omega, ?_, hqt⟩
        rw [Function.iterate_succ_apply', hagree z (Nat.find hhit) hk0min, hk0y, hq,
          pupd_self]
      · push_neg at hhit
        have hAll : ∀ k, q^[k] z = p^[k] z :=
          fun k => hagree z k (fun i _ => hhit i)
        have hrne : rootN n p z ≠ y := by
          rw [← hroot_d]
          exact hhit _
        have hqr : q (rootN n p z) = rootN n p z := by
          rw [hq, pupd_other hrne]
          exact rootN_isRoot hp z
        by_cases hcond : rootN n p z = rootN n p y
        · have ht_eq : t = rootN n p z := by
            rcases hcase with h | h
            · rw [h, ← hcond]
            · exact absurd (by rw [hcond, rootN_of_root h]) hrne
          rw [if_pos hcond, ht_eq]
          exact ⟨n, le_refl n, hAll n, hqr⟩
        · rw [if_neg hcond]
          exact ⟨n, le_refl n, hAll n, hqr⟩
    · have hpz : p z = z := hp.2.1 z hz
      have hr : rootN n p z = z := rootN_of_root hpz
      have hcond : ¬ (rootN n p z = rootN n p y) := by
        rw [hr]
        intro hc
        exact hz (hc ▸ rootN_lt hp hy)
      rw [if_neg hcond, hr]
      refine ⟨0, Nat.zero_le n, rfl, ?_⟩
      have hzy : z ≠ y := by omega
      rw [hq, pupd_other hzy]
      exact hpz
  constructor
  · refine ⟨?_, ?_, ?_⟩
    · intro x hx
      by_cases hxy : x = y
      · rw [hq, hxy, pupd_self]; exact ht
      · rw [hq, pupd_other hxy]; exact hp.1 x hx
    · intro x hx
      have hxy : x ≠ y := by omega
      rw [hq, pupd_other hxy]
      exact hp.2.1 x hx
    · intro z
      obtain ⟨k, -, hk1, hk2⟩ := main z
      refine ⟨k, ?_⟩
      rw [hk1]
      exact hk2
  · intro z
    obtain ⟨k, hkn, hk1, hk2⟩ := main z
    exact rootN_eq_of_reach hkn hk1 hk2

/-- find with path compression returns the root, keeps the forest valid
and changes no node's root. -/
theorem findF_spec {n : Nat} {p : Nat → Nat} (hp : ParentInv n p) :
    ∀ fuel x, x < n → dep p x (hp.2.2 x) < fuel →
      (findF fuel p x).2 = rootN n p x ∧
      ParentInv n (findF fuel p x).1 ∧
      ∀ z, rootN n (findF fuel p x).1 z = rootN n p z := by
  intro fuel
  induction fuel with
  | zero => intro x _ hd; omega
  | succ fuel ih =>
      intro x hxn hdfuel
      by_cases hroot : p x = x
      · have heq : findF (fuel + 1) p x = (p, x) := by rw [findF, if_pos hroot]
        rw [heq]
        exact ⟨(rootN_of_root hroot).symm, hp, fun _ => rfl⟩
      · have heq : findF (fuel + 1) p x =
            (pupd (findF fuel p (p x)).1 x (findF fuel p (p x)).2,
              (findF fuel p (p x)).2) := by
          rw [findF, if_neg hroot]
        have hpxn : p x < n := hp.1 x hxn
        have hdpos : dep p x (hp.2.2 x) ≠ 0 := by
          intro h0
          have hs := dep_spec (hp.2.2 x)
          rw [h0] at hs
          exact hroot (by simpa using hs)
        have hdshift : dep p (p x) (hp.2.2 (p x)) = dep p x (hp.2.2 x) - 1 := by
          have h1 := dep_shift (hp.2.2 x) 1 (by omega) (by simpa using hp.2.2 (p x))
          simpa using h1
        obtain ⟨ih2, ih_inv, ih_pres⟩ := ih (p x) hpxn (by omega)
        have hrr : (findF fuel p (p x)).2 = rootN n p x := by
          rw [ih2, rootN_parent hp]
        rw [heq]
        have hrn : (findF fuel p (p x)).2 < n := by rw [hrr]; exact rootN_lt hp hxn
        have hp1r : (findF fuel p (p x)).1 (findF fuel p (p x)).2
            = (findF fuel p (p x)).2 := by
          apply root_of_rootN_eq ih_inv
          rw [ih_pres, hrr]
          exact rootN_of_root (rootN_isRoot hp x)
        have hcase : (findF fuel p (p x)).2 = rootN n (findF fuel p (p x)).1 x := by
          rw [ih_pres x, hrr]
        obtain ⟨hinv2, hform⟩ := relink ih_inv hxn hrn hp1r (Or.inl hcase)
        refine ⟨hrr, hinv2, ?_⟩
        intro z
        by_cases hc : rootN n (findF fuel p (p x)).1 z
            = rootN n (findF fuel p (p x)).1 x
        · rw [hform z, if_pos hc, ← ih_pres z, hc, ← hcase, hrr]
        · rw [hform z, if_neg hc, ih_pres z]

/-- Pure bookkeeping of linking root b under root a: the effect on the
root function. -/
theorem link_spec {n : Nat} {p2 : Nat → Nat} (hp2 : ParentInv n p2)
    {a b : Nat} (ha : a < n) (hb : b < n)
    (hra : p2 a = a) (hrb : p2 b = b) :
    ParentInv n (pupd p2 b a) ∧
    ∀ z, rootN n (pupd p2 b a) z = if rootN n p2 z = b then a else rootN n p2 z := by
  have h1 := relink hp2 hb ha hra (Or.inr hrb)
  refine ⟨h1.1, fun z => ?_⟩
  rw [h1.2 z, rootN_of_root hrb]

/-- union merges exactly the classes of x and y, and keeps the forest
valid; the rank values only choose which root survives. -/
theorem unionF_spec {n : Nat} {p : Nat → Nat} (rk : Nat → Nat)
    (hp : ParentInv n p) {x y : Nat} (hx : x < n) (hy : y < n) :
    ParentInv n (unionF n p rk x y).1 ∧
    ∀ z w, rootN n (unionF n p rk x y).1 z = rootN n (unionF n p rk x y).1 w ↔
      (rootN n p z = rootN n p w ∨
       (rootN n p z = rootN n p x ∧ rootN n p w = rootN n p y) ∨
       (rootN n p z = rootN n p y ∧ rootN n p w = rootN n p x)) := by
  obtain ⟨h1root, h1inv, h1pres⟩ :=
    findF_spec hp n x hx (dep_lt hp hx)
  obtain ⟨h2root, h2inv, h2pres⟩ :=
    findF_spec h1inv n y hy (dep_lt h1inv hy)
  set p1 := (findF n p x).1 with hp1
  set p2 := (findF n (findF n p x).1 y).1 with hp2def
  have h2pres2 : ∀ z, rootN n p2 z = rootN n p z := by
    intro z; rw [h2pres z, h1pres z]
  have hRX : (findF n p x).2 = rootN n p x := h1root
  have hRY : (findF n p1 y).2 = rootN n p y := by rw [h2root, h1pres y]
  have hRXlt : rootN n p x < n := rootN_lt hp hx
  have hRYlt : rootN n p y < n := rootN_lt hp hy
  have hrootX : p2 (rootN n p x) = rootN n p x := by
    apply root_of_rootN_eq h2inv
    rw [h2pres2]
    exact rootN_of_root (rootN_isRoot hp x)
  have hrootY : p2 (rootN n p y) = rootN n p y := by
    apply root_of_rootN_eq h2inv
    rw [h2pres2]
    exact rootN_of_root (rootN_isRoot hp y)
  have hu : unionF n p rk x y =
      (if rootN n p x = rootN n p y then (p2, rk)
       else if rk (rootN n p y) < rk (rootN n p x) then
         (pupd p2 (rootN n p y) (rootN n p x), rk)
       else if rk (rootN n p x) < rk (rootN n p y) then
         (pupd p2 (rootN n p x) (rootN n p y), rk)
       else (pupd p2 (rootN n p y) (rootN n p x),
         pupd rk (rootN n p x) (rk (rootN n p x) + 1))) := by
    rw [unionF]
    rw [show (findF n p x).2 = rootN n p x from hRX]
    rw [show (findF n (findF n p x).1 y).2 = rootN n p y from hRY]
  by_cases hXY : rootN n p x = rootN n p y
  · rw [hu, if_pos hXY]
    refine ⟨h2inv, fun z w => ?_⟩
    rw [h2pres2 z, h2pres2 w]
    constructor
    · exact fun h => Or.inl h
    · rintro (h | ⟨h1, h2⟩ | ⟨h1, h2⟩) <;> omega
  · have hgoal : ∀ a b : Nat,
        (a = rootN n p x ∧ b = rootN n p y) ∨ (a = rootN n p y ∧ b = rootN n p x) →
        ParentInv n (pupd p2 b a) ∧
        ∀ z w, rootN n (pupd p2 b a) z = rootN n (pupd p2 b a) w ↔
          (rootN n p z = rootN n p w ∨
           (rootN n p z = rootN n p x ∧ rootN n p w = rootN n p y) ∨
           (rootN n p z = rootN n p y ∧ rootN n p w = rootN n p x)) := by
      rintro a b (⟨rfl, rfl⟩ | ⟨rfl, rfl⟩)
      · obtain ⟨hinv, hform⟩ := link_spec h2inv hRXlt hRYlt hrootX hrootY
        refine ⟨hinv, fun z w => ?_⟩
        rw [hform z, hform w, h2pres2 z, h2pres2 w]
        split_ifs <;> omega
      · obtain ⟨hinv, hform⟩ := link_spec h2inv hRYlt hRXlt hrootY hrootX
        refine ⟨hinv, fun z w => ?_⟩
        rw [hform z, hform w, h2pres2 z, h2pres2 w]
        split_ifs <;> omega
    rw [hu, if_neg hXY]
    by_cases hr1 : rk (rootN n p y) < rk (rootN n p x)
    · rw [if_pos hr1]
      exact hgoal _ _ (Or.inl ⟨rfl, rfl⟩)
    · rw [if_neg hr1]
      by_cases hr2 : rk (rootN n p x) < rk (rootN n p y)
      · rw [if_pos hr2]
        exact hgoal _ _ (Or.inr ⟨rfl, rfl⟩)
      · rw [if_neg hr2]
        exact hgoal _ _ (Or.inl ⟨rfl, rfl⟩)

theorem eqvGen_of_empty {z w : Nat}
    (h : Relation.EqvGen (fun a b => (a, b) ∈ ([] : List (Nat × Nat))) z w) :
    z = w := by
  induction h with
  | rel a b hab => exact absurd hab (List.not_mem_nil _)
  | refl a => rfl
  | symm a b _ ih => exact ih.symm
  | trans a b e _ _ ih1 ih2 => exact ih1.trans ih2

theorem eqvGen_comm {r : Nat → Nat → Prop} {z w : Nat} :
    Relation.EqvGen r z w ↔ Relation.EqvGen r w z :=
  ⟨Relation.EqvGen.symm z w, Relation.EqvGen.symm w z⟩

/-- Extending a pair list by one pair (u, v) joins the classes of u and
v and changes nothing else. -/
theorem eqvGen_append_single (l : List (Nat × Nat)) (u v : Nat) (z w : Nat) :
    Relation.EqvGen (fun a b => (a, b) ∈ l ++ [(u, v)]) z w ↔
      (Relation.EqvGen (fun a b => (a, b) ∈ l) z w ∨
       (Relation.EqvGen (fun a b => (a, b) ∈ l) z u ∧
        Relation.EqvGen (fun a b => (a, b) ∈ l) v w) ∨
       (Relation.EqvGen (fun a b => (a, b) ∈ l) z v ∧
        Relation.EqvGen (fun a b => (a, b) ∈ l) u w)) := by
  constructor
  · intro h
    induction h with
    | rel a b hab =>
        rcases List.mem_append.mp hab with hl | hr
        · exact Or.inl (Relation.EqvGen.rel a b hl)
        · have hpq : (a, b) = (u, v) := List.mem_singleton.mp hr
          have ha : a = u := congrArg Prod.fst hpq
          have hbv : b = v := congrArg Prod.snd hpq
          subst ha
          subst hbv
          exact Or.inr (Or.inl ⟨Relation.EqvGen.refl a, Relation.EqvGen.refl b⟩)
    | refl a => exact Or.inl (Relation.EqvGen.refl a)
    | symm a b _ ih =>
        rcases ih with h | ⟨h1, h2⟩ | ⟨h1, h2⟩
        · exact Or.inl (Relation.EqvGen.symm a b h)
        · exact Or.inr (Or.inr ⟨Relation.EqvGen.symm _ _ h2, Relation.EqvGen.symm _ _ h1⟩)
        · exact Or.inr (Or.inl ⟨Relation.EqvGen.symm _ _ h2, Relation.EqvGen.symm _ _ h1⟩)
    | trans a b e _ _ ih1 ih2 =>
        rcases ih1 with h | ⟨h1, h2⟩ | ⟨h1, h2⟩ <;>
          rcases ih2 with g | ⟨g1, g2⟩ | ⟨g1, g2⟩
        · exact Or.inl (Relation.EqvGen.trans _ _ _ h g)
        · exact Or.inr (Or.inl ⟨Relation.EqvGen.trans _ _ _ h g1, g2⟩)
        · exact Or.inr (Or.inr ⟨Relation.EqvGen.trans _ _ _ h g1, g2⟩)
        · exact Or.inr (Or.inl ⟨h1, Relation.EqvGen.trans _ _ _ h2 g⟩)
        · exact Or.inl (Relation.EqvGen.trans _ _ _
            (Relation.EqvGen.trans _ _ _ h1
              (Relation.EqvGen.symm _ _ (Relation.EqvGen.trans _ _ _ h2 g1))) g2)
        · exact Or.inl (Relation.EqvGen.trans _ _ _ h1 g2)
        · exact Or.inr (Or.inr ⟨h1, Relation.EqvGen.trans _ _ _ h2 g⟩)
        · exact Or.inl (Relation.EqvGen.trans _ _ _ h1 g2)
        · exact Or.inl (Relation.EqvGen.trans _ _ _
            (Relation.EqvGen.trans _ _ _ h1
              (Relation.EqvGen.symm _ _ (Relation.EqvGen.trans _ _ _ h2 g1))) g2)
  · have hmono : ∀ {a b : Nat}, Relation.EqvGen (fun a b => (a, b) ∈ l) a b →
        Relation.EqvGen (fun a b => (a, b) ∈ l ++ [(u, v)]) a b :=
      fun h => Relation.EqvGen.mono (fun a b hab => List.mem_append_left _ hab) h
    have hedge : Relation.EqvGen (fun a b => (a, b) ∈ l ++ [(u, v)]) u v :=
      Relation.EqvGen.rel u v (List.mem_append_right _ (List.mem_singleton_self _))
    rintro (h | ⟨h1, h2⟩ | ⟨h1, h2⟩)
    · exact hmono h
    · exact Relation.EqvGen.trans _ _ _ (Relation.EqvGen.trans _ _ _ (hmono h1) hedge)
        (hmono h2)
    · exact Relation.EqvGen.trans _ _ _ (Relation.EqvGen.trans _ _ _ (hmono h1)
        (Relation.EqvGen.symm _ _ hedge)) (hmono h2)

/-- The union fold keeps the forest valid and its root-equality is the
equivalence closure of the processed pairs. -/
theorem unionFold_spec (n : Nat) (pairs : List (Nat × Nat))
    (hb : ∀ pr ∈ pairs, pr.1 < n ∧ pr.2 < n) :
    ParentInv n (pairs.foldl
      (fun (st : (Nat → Nat) × (Nat → Nat)) ab => unionF n st.1 st.2 ab.1 ab.2)
      ((fun i => i), (fun _ => 0))).1 ∧
    ∀ z w, z < n → w < n →
      (rootN n (pairs.foldl
        (fun (st : (Nat → Nat) × (Nat → Nat)) ab => unionF n st.1 st.2 ab.1 ab.2)
        ((fun i => i), (fun _ => 0))).1 z
       = rootN n (pairs.foldl
        (fun (st : (Nat → Nat) × (Nat → Nat)) ab => unionF n st.1 st.2 ab.1 ab.2)
        ((fun i => i), (fun _ => 0))).1 w ↔
        Relation.EqvGen (fun a b => (a, b) ∈ pairs) z w) := by
  induction pairs using List.reverseRecOn with
  | nil =>
      refine ⟨parentInv_id n, fun z w _ _ => ?_⟩
      have hz : rootN n (fun i => i) z = z := Function.iterate_fixed rfl n
      have hw : rootN n (fun i => i) w = w := Function.iterate_fixed rfl n
      simp only [List.foldl_nil, hz, hw]
      exact ⟨fun h => h ▸ Relation.EqvGen.refl z, eqvGen_of_empty⟩
  | append_singleton l pr ih =>
      have hbl : ∀ p ∈ l, p.1 < n ∧ p.2 < n :=
        fun p hp => hb p (List.mem_append_left _ hp)
      have hpr : pr.1 < n ∧ pr.2 < n :=
        hb pr (List.mem_append_right _ (List.mem_singleton_self _))
      obtain ⟨ihinv, ihiff⟩ := ih hbl
      rw [List.foldl_append, List.foldl_cons, List.foldl_nil]
      obtain ⟨uinv, uiff⟩ := unionF_spec
        (l.foldl
          (fun (st : (Nat → Nat) × (Nat → Nat)) ab => unionF n st.1 st.2 ab.1 ab.2)
          ((fun i => i), (fun _ => 0))).2
        ihinv hpr.1 hpr.2
      refine ⟨uinv, fun z w hz hw => ?_⟩
      rw [uiff z w, ihiff z w hz hw, ihiff z pr.1 hz hpr.1, ihiff w pr.2 hw hpr.2,
        ihiff z pr.2 hz hpr.2, ihiff w pr.1 hw hpr.1,
        eqvGen_append_single l pr.1 pr.2 z w]
      constructor
      · rintro (h | ⟨h1, h2⟩ | ⟨h1, h2⟩)
        · exact Or.inl h
        · exact Or.inr (Or.inl ⟨h1, Relation.EqvGen.symm _ _ h2⟩)
        · exact Or.inr (Or.inr ⟨h1, Relation.EqvGen.symm _ _ h2⟩)
      · rintro (h | ⟨h1, h2⟩ | ⟨h1, h2⟩)
        · exact Or.inl h
        · exact Or.inr (Or.inl ⟨h1, Relation.EqvGen.symm _ _ h2⟩)
        · exact Or.inr (Or.inr ⟨h1, Relation.EqvGen.symm _ _ h2⟩)

/-- The final collection loop returns the roots, in order. -/
theorem outLoop_spec (n : Nat) :
    ∀ (l : List Nat) (p : Nat → Nat) (acc : List Nat), ParentInv n p →
      (∀ i ∈ l, i < n) →
      (l.foldl (fun (acc : (Nat → Nat) × List Nat) i =>
        let f := findF n acc.1 i
        (f.1, acc.2 ++ [f.2])) (p, acc)).2 = acc ++ l.map (rootN n p) := by
  intro l
  induction l with
  | nil => intro p acc _ _; simp
  | cons i l ih =>
      intro p acc hp hl
      have hin : i < n := hl i (by simp)
      obtain ⟨hroot, hinv, hpres⟩ := findF_spec hp n i hin (dep_lt hp hin)
      rw [List.foldl_cons]
      rw [show (let f := findF n (p, acc).1 i; (f.1, (p, acc).2 ++ [f.2]))
        = ((findF n p i).1, acc ++ [(findF n p i).2]) from rfl]
      rw [ih (findF n p i).1 (acc ++ [(findF n p i).2]) hinv
        (fun j hj => hl j (List.mem_cons_of_mem i hj))]
      rw [hroot, List.map_congr_left (fun j (_ : j ∈ l) => hpres j)]
      simp

/-- get_unique_nodes_inds lists the root of every element of 0..n-1 in
the forest built by the union fold. -/
theorem get_unique_nodes_inds_eq_roots (pairs : List (Nat × Nat)) (n : Nat)
    (hb : ∀ pr ∈ pairs, pr.1 < n ∧ pr.2 < n) :
    get_unique_nodes_inds pairs n
      = (List.range n).map (rootN n
          (pairs.foldl
            (fun (st : (Nat → Nat) × (Nat → Nat)) ab => unionF n st.1 st.2 ab.1 ab.2)
            ((fun i => i), (fun _ => 0))).1) := by
  obtain ⟨hinv, -⟩ := unionFold_spec n pairs hb
  have h1 := outLoop_spec n (List.range n) _ [] hinv (fun i hi => List.mem_range.mp hi)
  simpa [get_unique_nodes_inds] using h1

/-- C4: two elements receive the same value in get_unique_nodes_inds iff
they are connected by a chain of the given couples. -/
theorem get_unique_nodes_inds_same_iff_chain
    (nodes_couples : List (Nat × Nat)) (nb_nodes : Nat)
    (hb : ∀ pr ∈ nodes_couples, pr.1 < nb_nodes ∧ pr.2 < nb_nodes)
    {i j : Nat} (hi : i < nb_nodes) (hj : j < nb_nodes) :
    ((get_unique_nodes_inds nodes_couples nb_nodes).getD i 0
      = (get_unique_nodes_inds nodes_couples nb_nodes).getD j 0)
      ↔ Relation.EqvGen (fun a b => (a, b) ∈ nodes_couples) i j := by
  obtain ⟨hinv, hiff⟩ := unionFold_spec nb_nodes nodes_couples hb
  rw [get_unique_nodes_inds_eq_roots nodes_couples nb_nodes hb]
  have hgd : ∀ k, k < nb_nodes →
      ((List.range nb_nodes).map (rootN nb_nodes
        (nodes_couples.foldl
          (fun (st : (Nat → Nat) × (Nat → Nat)) ab => unionF nb_nodes st.1 st.2 ab.1 ab.2)
          ((fun i => i), (fun _ => 0))).1)).getD k 0
      = rootN nb_nodes
          (nodes_couples.foldl
            (fun (st : (Nat → Nat) × (Nat → Nat)) ab => unionF nb_nodes st.1 st.2 ab.1 ab.2)
            ((fun i => i), (fun _ => 0))).1 k := by
    intro k hk
    rw [List.getD_eq_getElem _ _ (by simpa using hk), List.getElem_map, List.getElem_range]
  rw [hgd i hi, hgd j hj]
  exact hiff i j hi hj

/-- Concrete instantiation of the C4 theorem: couples (0,1),(1,2) on 3
elements; elements 0 and 2 end in the same class. -/
theorem get_unique_nodes_inds_same_iff_chain_witness :
    (∀ pr ∈ [((0 : Nat), (1 : Nat)), (1, 2)], pr.1 < 3 ∧ pr.2 < 3) ∧
    (0 : Nat) < 3 ∧ (2 : Nat) < 3 ∧
    (((get_unique_nodes_inds [(0, 1), (1, 2)] 3).getD 0 0
      = (get_unique_nodes_inds [(0, 1), (1, 2)] 3).getD 2 0)
      ↔ Relation.EqvGen (fun a b => (a, b) ∈ [((0 : Nat), (1 : Nat)), (1, 2)]) 0 2) :=
  ⟨by decide, by decide, by decide,
    get_unique_nodes_inds_same_iff_chain [(0, 1), (1, 2)] 3 (by decide)
      (by decide) (by decide)⟩

/-! ### pack / unpack / separate / agglomerate -/

/-- A sequential scatter (foldl of List.set) reads back, at an in-range
position j, the value of the last write to j, and the initial value when
j was never written. -/
theorem scatter_getD {α : Type} :
    ∀ (ps : List (Nat × α)) (init : List α) (j : Nat) (d : α), j < init.length →
      ((ps.foldl (fun l jv => l.set jv.1 jv.2) init).getD j d)
        = (match ps.reverse.find? (fun q => q.1 = j) with
           | some q => q.2
           | none => init.getD j d) := by
  intro ps
  induction ps with
  | nil => intro init j d _; rfl
  | cons q ps ih =>
      intro init j d hj
      rw [List.foldl_cons, ih (init.set q.1 q.2) j d (by simpa using hj),
        List.reverse_cons, List.find?_append]
      cases hfind : ps.reverse.find? (fun r => decide (r.1 = j)) with
      | some r => rw [Option.or_some]
      | none =>
          rw [Option.none_or]
          by_cases hq : q.1 = j
          · have hfq : List.find? (fun r => decide (r.1 = j)) [q] = some q := by
              simp [List.find?, hq]
            rw [hfq]
            show (init.set q.1 q.2).getD j d = q.2
            subst hq
            rw [List.getD_eq_getElem _ _ (by simpa using hj),
              List.getElem_set, if_pos rfl]
          · have hfq : List.find? (fun r => decide (r.1 = j)) [q] = none := by
              simp [List.find?, hq]
            rw [hfq]
            show (init.set q.1 q.2).getD j d = init.getD j d
            rw [List.getD_eq_getElem _ _ (by simpa using hj),
              List.getD_eq_getElem _ _ hj, List.getElem_set, if_neg hq]

theorem scatter_length {α : Type} :
    ∀ (ps : List (Nat × α)) (init : List α),
      (ps.foldl (fun l jv => l.set jv.1 jv.2) init).length = init.length := by
  intro ps
  induction ps with
  | nil => intro init; rfl
  | cons q ps ih => intro init; rw [List.foldl_cons, ih, List.length_set]

theorem reverse_zip_reverse {α β : Type} :
    ∀ (l1 : List α) (l2 : List β), l1.length = l2.length →
      l1.reverse.zip l2.reverse = (l1.zip l2).reverse := by
  intro l1
  induction l1 with
  | nil => intro l2 h; simp
  | cons a l1 ih =>
      intro l2 h
      cases l2 with
      | nil => simp at h
      | cons b l2 =>
          have hlen : l1.length = l2.length := by simpa using h
          rw [List.reverse_cons, List.reverse_cons,
            List.zip_append (by simp [hlen]), ih l2 hlen, List.zip_cons_cons,
            List.zip_cons_cons, List.reverse_cons]
          rfl

/-- find? on a zip locates the first index carrying value j. -/
theorem find?_zip_indexOf {α : Type} :
    ∀ (l : List Nat) (x : List α) (j : Nat) (d : α), l.length = x.length → j ∈ l →
      (l.zip x).find? (fun q => q.1 = j) = some (j, x.getD (List.indexOf j l) d) := by
  intro l
  induction l with
  | nil => intro x j d _ hj; exact absurd hj (List.not_mem_nil j)
  | cons a l ih =>
      intro x j d hlen hj
      cases x with
      | nil => simp at hlen
      | cons y x =>
          have hlen2 : l.length = x.length := by simpa using hlen
          rw [List.zip_cons_cons]
          by_cases ha : a = j
          · subst ha
            have h1 : List.indexOf a (a :: l) = 0 := by simp [List.indexOf_cons]
            rw [h1, List.getD_cons_zero, List.find?_cons_of_pos _ (by simp)]
          · have hjl : j ∈ l := by
              rcases List.mem_cons.mp hj with h | h
              · exact absurd h.symm ha
              · exact h
            have h1 : List.indexOf j (a :: l) = List.indexOf j l + 1 := by
              simp [List.indexOf_cons, ha]
            rw [h1, List.getD_cons_succ, List.find?_cons_of_neg _ (by simp [ha])]
            exact ih x j d hlen2 hjl

theorem indexOf_toNat_map (L : List ℤ) (hnn : ∀ v ∈ L, 0 ≤ v) (j : Nat) :
    List.indexOf j (L.map Int.toNat) = List.indexOf ((j : ℕ) : ℤ) L := by
  induction L with
  | nil => rfl
  | cons v L ih =>
      have hv : 0 ≤ v := hnn v (List.mem_cons_self v L)
      have hih := ih (fun w hw => hnn w (List.mem_cons_of_mem _ hw))
      rw [List.map_cons]
      by_cases h : v = (j : ℤ)
      · have h2 : v.toNat = j := by omega
        rw [h2, h, List.indexOf_cons_self, List.indexOf_cons_self]
      · have h2 : v.toNat ≠ j := by omega
        rw [List.indexOf_cons_ne _ h2, List.indexOf_cons_ne _ h, hih]

theorem packFirst_length {α : Type} (c : Conn) (zero : α) (x : List α) :
    (c.packFirst zero x).length = c.nb_unique_nodes := by
  show ((((c.unique_nodes_inds.map Int.toNat).reverse).zip x.reverse).foldl
    (fun l jv => l.set jv.1 jv.2) (List.replicate c.nb_unique_nodes zero)).length = _
  rw [scatter_length, List.length_replicate]

/-- The value pack(method='first') stores at unique node j is the entry
of the first unpacked slot carrying j: the reversed write order makes
the earliest slot's write land last. -/
theorem packFirst_getD_first_slot {α : Type} (c : Conn) (zero : α) (x : List α)
    (hnn : ∀ v ∈ c.unique_nodes_inds, 0 ≤ v)
    (hlen : x.length = c.unique_nodes_inds.length)
    {j : Nat} (hjK : j < c.nb_unique_nodes)
    (hmem : ((j : ℕ) : ℤ) ∈ c.unique_nodes_inds) :
    (c.packFirst zero x).getD j zero
      = x.getD (List.indexOf ((j : ℕ) : ℤ) c.unique_nodes_inds) zero := by
  have hxlen : (c.unique_nodes_inds.map Int.toNat).length = x.length := by
    rw [List.length_map, hlen]
  have hscatter := scatter_getD
    (((c.unique_nodes_inds.map Int.toNat).reverse).zip x.reverse)
    (List.replicate c.nb_unique_nodes zero) j zero (by simpa using hjK)
  have hrev : ((((c.unique_nodes_inds.map Int.toNat).reverse).zip x.reverse)).reverse
      = (c.unique_nodes_inds.map Int.toNat).zip x := by
    rw [reverse_zip_reverse _ _ hxlen, List.reverse_reverse]
  have hjmem : j ∈ c.unique_nodes_inds.map Int.toNat :=
    List.mem_map.mpr ⟨(j : ℤ), hmem, Int.toNat_natCast j⟩
  have hfind := find?_zip_indexOf (c.unique_nodes_inds.map Int.toNat) x j zero
    hxlen hjmem
  rw [hrev, hfind] at hscatter
  rw [indexOf_toNat_map c.unique_nodes_inds hnn j] at hscatter
  exact hscatter

/-- Counterexample to C5 as stated: on the connectivity of couples
[(0,1)] over 2 nodes (both slots map to unique node 0) and the unpacked
field [10, 20], pack with method='first' stores 10 — the value of the
FIRST slot — not 20, the value of the last slot in increasing order. -/
theorem packFirst_last_writer_counterexample :
    (from_nodes_couples [(0, 1)] [[2]]).unique_nodes_inds = [0, 0] ∧
    ((from_nodes_couples [(0, 1)] [[2]]).packFirst (0 : ℤ) [10, 20]).getD 0 0 = 10 ∧
    (10 : ℤ) ≠ 20 := by decide

/-- C5 amended: pack(x, method='first') assigns to every unique node j
the value contributed by the FIRST unpacked slot mapping to j (smallest
slot index); the reversed fancy-index write makes that slot's write land
last. -/
theorem packFirst_first_writer_wins {α : Type} (c : Conn) (zero : α) (x : List α)
    (hnn : ∀ v ∈ c.unique_nodes_inds, 0 ≤ v)
    (hlen : x.length = c.unique_nodes_inds.length)
    {j : Nat} (hjK : j < c.nb_unique_nodes)
    (hmem : ((j : ℕ) : ℤ) ∈ c.unique_nodes_inds) :
    (c.packFirst zero x).getD j zero
      = x.getD (List.indexOf ((j : ℕ) : ℤ) c.unique_nodes_inds) zero :=
  packFirst_getD_first_slot c zero x hnn hlen hjK hmem

/-- Concrete instantiation of the amended C5: slots [10, 20] both map to
unique node 0; the packed value is the first slot's 10. -/
theorem packFirst_first_writer_wins_witness :
    (∀ v ∈ (from_nodes_couples [(0, 1)] [[2]]).unique_nodes_inds, 0 ≤ v) ∧
    ([10, 20] : List ℤ).length
      = (from_nodes_couples [(0, 1)] [[2]]).unique_nodes_inds.length ∧
    0 < (from_nodes_couples [(0, 1)] [[2]]).nb_unique_nodes ∧
    ((0 : ℕ) : ℤ) ∈ (from_nodes_couples [(0, 1)] [[2]]).unique_nodes_inds ∧
    ((from_nodes_couples [(0, 1)] [[2]]).packFirst (0 : ℤ) [10, 20]).getD 0 0
      = ([10, 20] : List ℤ).getD
          (List.indexOf ((0 : ℕ) : ℤ)
            (from_nodes_couples [(0, 1)] [[2]]).unique_nodes_inds) 0 :=
  ⟨by decide, by decide, by decide, by decide,
    packFirst_first_writer_wins (from_nodes_couples [(0, 1)] [[2]]) 0 [10, 20]
      (by decide) (by decide) (by decide) (by decide)⟩

/-- C7: on a connectivity satisfying the canonical-surjection invariant,
pack(unpack(u), method='first') = u for every unique-space field u. -/
theorem pack_first_unpack_roundtrip {α : Type} (c : Conn) (zero dflt : α)
    (u : List α)
    (hcanon : ∀ v : ℤ, v ∈ c.unique_nodes_inds ↔
      0 ≤ v ∧ (v : ℤ) < c.nb_unique_nodes)
    (hulen : u.length = c.nb_unique_nodes) :
    c.packFirst zero (c.unpack u dflt) = u := by
  have hnn : ∀ v ∈ c.unique_nodes_inds, 0 ≤ v := fun v hv => ((hcanon v).mp hv).1
  have hxlen : (c.unpack u dflt).length = c.unique_nodes_inds.length :=
    List.length_map _ _
  apply List.ext_getElem (by rw [packFirst_length, hulen])
  intro jj h1 h2
  have hjK : jj < c.nb_unique_nodes := by rwa [packFirst_length] at h1
  have hmem : ((jj : ℕ) : ℤ) ∈ c.unique_nodes_inds :=
    (hcanon _).mpr ⟨Int.natCast_nonneg jj, by exact_mod_cast hjK⟩
  have hmain := packFirst_getD_first_slot c zero (c.unpack u dflt) hnn hxlen hjK hmem
  have hi0 : List.indexOf ((jj : ℕ) : ℤ) c.unique_nodes_inds
      < c.unique_nodes_inds.length := List.indexOf_lt_length.mpr hmem
  have hi0x : List.indexOf ((jj : ℕ) : ℤ) c.unique_nodes_inds
      < (c.unpack u dflt).length := by rwa [hxlen]
  have h5 : (c.unpack u dflt).getD
      (List.indexOf ((jj : ℕ) : ℤ) c.unique_nodes_inds) zero = u.getD jj dflt := by
    rw [List.getD_eq_getElem _ _ hi0x]
    show (c.unique_nodes_inds.map
      (fun (v : ℤ) => u.getD v.toNat dflt))[List.indexOf ((jj : ℕ) : ℤ)
        c.unique_nodes_inds] = u.getD jj dflt
    rw [List.getElem_map, List.getElem_indexOf hi0, Int.toNat_natCast]
  rw [← List.getD_eq_getElem (c.packFirst zero (c.unpack u dflt)) zero h1,
    ← List.getD_eq_getElem u dflt h2, hmain, h5]

/-- Concrete instantiation of the C7 theorem: inds [0,0,1], u = [5,7]. -/
theorem pack_first_unpack_roundtrip_witness :
    (∀ v : ℤ, v ∈ (from_nodes_couples [(0, 1)] [[3]]).unique_nodes_inds ↔
      0 ≤ v ∧ (v : ℤ) < (from_nodes_couples [(0, 1)] [[3]]).nb_unique_nodes) ∧
    ([5, 7] : List ℤ).length = (from_nodes_couples [(0, 1)] [[3]]).nb_unique_nodes ∧
    (from_nodes_couples [(0, 1)] [[3]]).packFirst (0 : ℤ)
      ((from_nodes_couples [(0, 1)] [[3]]).unpack [5, 7] 0) = [5, 7] := by
  have hinds : (from_nodes_couples [(0, 1)] [[3]]).unique_nodes_inds
      = [0, 0, 1] := by decide
  have hK : (from_nodes_couples [(0, 1)] [[3]]).nb_unique_nodes = 2 := by decide
  have hcanon : ∀ v : ℤ, v ∈ (from_nodes_couples [(0, 1)] [[3]]).unique_nodes_inds ↔
      0 ≤ v ∧ (v : ℤ) < (from_nodes_couples [(0, 1)] [[3]]).nb_unique_nodes := by
    intro v
    rw [hinds, hK]
    constructor
    · intro hv
      simp only [List.mem_cons, List.not_mem_nil, or_false] at hv
      constructor <;> [rcases hv with h | h | h; rcases hv with h | h | h] <;> omega
    · intro hv
      have h01 : v = 0 ∨ v = 1 := by omega
      rcases h01 with h | h <;> rw [h] <;> decide
  exact ⟨hcanon, by decide,
    pack_first_unpack_roundtrip _ 0 0 [5, 7] hcanon (by decide)⟩

/-- Splitting into chunks of sizes summing to the length and flattening
is the identity. -/
theorem chunks_flatten {α : Type} :
    ∀ (sizes : List Nat) (x : List α), x.length = sizes.sum →
      (chunks sizes x).flatten = x := by
  intro sizes
  induction sizes with
  | nil =>
      intro x h
      have hx : x = [] := List.length_eq_zero.mp (by simpa using h)
      rw [hx]
      rfl
  | cons s rest ih =>
      intro x h
      show x.take s ++ (chunks rest (x.drop s)).flatten = x
      rw [ih (x.drop s) (by rw [List.length_drop, h, List.sum_cons]; omega)]
      exact List.take_append_drop s x

/-- C8: agglomerate(separate(x)) = x for every unpacked field whose node
axis has length nb_nodes. -/
theorem agglomerate_separate_roundtrip {α : Type} (c : Conn) (x : List α)
    (hlen : x.length = c.nb_nodes) :
    c.agglomerate (c.separate x) = x := by
  show (chunks (c.shape_by_patch.map (fun s => s.prod)) x).flatten = x
  exact chunks_flatten _ x hlen

/-- Concrete instantiation of the C8 theorem: two patches of shapes [2]
and [1]. -/
theorem agglomerate_separate_roundtrip_witness :
    (([10, 20, 30] : List ℤ)).length = (Conn.mk [0, 1, 2] [[2], [1]] 3).nb_nodes ∧
    (Conn.mk [0, 1, 2] [[2], [1]] 3).agglomerate
      ((Conn.mk [0, 1, 2] [[2], [1]] 3).separate [10, 20, 30]) = [10, 20, 30] :=
  ⟨by decide, agglomerate_separate_roundtrip _ [10, 20, 30] (by decide)⟩

/-! ### Border slice selection -/

theorem flatIdx_lt : ∀ (s : List Nat) (coords : List Nat),
    coords ∈ gridCoords s → flatIdx s coords < s.prod := by
  intro s
  induction s with
  | nil =>
      intro coords hc
      have h1 : coords = [] := by simpa [gridCoords] using hc
      rw [h1]
      simp [flatIdx]
  | cons sh rest ih =>
      intro coords hc
      simp only [gridCoords, List.mem_flatMap, List.mem_range, List.mem_map] at hc
      obtain ⟨k, hk, c0, hc0, rfl⟩ := hc
      show k * rest.prod + flatIdx rest c0 < (sh :: rest).prod
      rw [List.prod_cons]
      have h1 := ih c0 hc0
      calc k * rest.prod + flatIdx rest c0 < k * rest.prod + rest.prod := by omega
        _ = (k + 1) * rest.prod := by ring
        _ ≤ sh * rest.prod := Nat.mul_le_mul_right _ hk

theorem patchOffset_add_le (c : Conn) {i : Nat} (hi : i < c.nb_patchs) :
    c.patchOffset i + (c.shape_by_patch.getD i []).prod ≤ c.nb_nodes := by
  have hi2 : i < c.shape_by_patch.length := hi
  have hdrop : c.shape_by_patch.drop i
      = c.shape_by_patch.getD i [] :: c.shape_by_patch.drop (i + 1) := by
    rw [List.getD_eq_getElem _ _ hi2]
    exact List.drop_eq_getElem_cons hi2
  have hsplit : c.nb_nodes
      = c.patchOffset i + ((c.shape_by_patch.drop i).map (fun s => s.prod)).sum := by
    show ((c.shape_by_patch.map (fun s => s.prod)).sum) = _
    conv_lhs => rw [← List.take_append_drop i c.shape_by_patch]
    rw [List.map_append, List.sum_append]
    rfl
  rw [hsplit, hdrop, List.map_cons, List.sum_cons]
  omega

theorem slot_lt_nb_nodes (c : Conn) {i : Nat} (hi : i < c.nb_patchs)
    {coords : List Nat} (hc : coords ∈ gridCoords (c.shape_by_patch.getD i [])) :
    c.patchOffset i + flatIdx (c.shape_by_patch.getD i []) coords < c.nb_nodes := by
  have h1 := flatIdx_lt _ coords hc
  have h2 := patchOffset_add_le c hi
  omega

/-- The mask built through np.unique counts is the occurrence-count test:
slot marked iff its unique index appears more than once. -/
theorem dupMask_getD (c : Conn) {slot : Nat}
    (hs : slot < c.unique_nodes_inds.length) :
    (c.get_duplicate_unpacked_nodes_mask).getD slot false
      = decide (1 < c.unique_nodes_inds.count (c.unique_nodes_inds.getD slot 0)) := by
  have hmask : c.get_duplicate_unpacked_nodes_mask
      = c.unique_nodes_inds.map (fun v => decide (1 <
          ((npUnique c.unique_nodes_inds).map
            (fun w => c.unique_nodes_inds.count w)).getD
          (List.indexOf v (npUnique c.unique_nodes_inds)) 0)) := rfl
  rw [hmask, List.getD_eq_getElem _ _ (by simpa using hs), List.getElem_map,
    List.getD_eq_getElem _ _ hs]
  have hvmem : c.unique_nodes_inds[slot] ∈ npUnique c.unique_nodes_inds :=
    (mem_npUnique _ _).mpr (List.getElem_mem hs)
  have hidx : List.indexOf c.unique_nodes_inds[slot] (npUnique c.unique_nodes_inds)
      < (npUnique c.unique_nodes_inds).length := List.indexOf_lt_length.mpr hvmem
  rw [List.getD_eq_getElem _ _ (by simpa using hidx), List.getElem_map,
    List.getElem_indexOf hidx]

/-- The code's all-slots-duplicate slice test agrees with the
specification's wording. -/
theorem sliceAllDup_iff (c : Conn)
    (hlen : c.unique_nodes_inds.length = c.nb_nodes)
    {i : Nat} (hi : i < c.nb_patchs) (axis : Nat) (side : Bool) :
    c.sliceAllDup i axis side = true ↔ c.SliceFullyDuplicated i axis side := by
  rw [Conn.sliceAllDup, List.all_eq_true]
  constructor
  · intro h coords hc hon
    have h1 := h coords hc
    rw [if_pos hon] at h1
    have hslot : c.patchOffset i + flatIdx (c.shape_by_patch.getD i []) coords
        < c.unique_nodes_inds.length := by
      rw [hlen]
      exact slot_lt_nb_nodes c hi hc
    rw [dupMask_getD c hslot] at h1
    exact of_decide_eq_true h1
  · intro h coords hc
    by_cases hon : coords.getD axis 0
        = (if side then (c.shape_by_patch.getD i []).getD axis 1 - 1 else 0)
    · rw [if_pos hon]
      have hslot : c.patchOffset i + flatIdx (c.shape_by_patch.getD i []) coords
          < c.unique_nodes_inds.length := by
        rw [hlen]
        exact slot_lt_nb_nodes c hi hc
      rw [dupMask_getD c hslot]
      exact decide_eq_true (h coords hc hon)
    · rw [if_neg hon]

theorem mem_ite_singleton {α : Type} (P : Prop) [Decidable P] (x y : α) :
    (x ∈ if P then [y] else []) ↔ P ∧ x = y := by
  split_ifs with h
  · simp [h]
  · simp [h]

/-- C9: for npa ≥ 2, the extremal slice of a patch along an axis is in
the exterior border output iff not every slot of the slice has a
duplicated unique node, and in the interior border output iff every slot
does. -/
theorem extract_borders_slice_selection (c : Conn)
    (hnpa : 2 ≤ c.npa) (hlen : c.unique_nodes_inds.length = c.nb_nodes)
    {i axis : Nat} (hi : i < c.nb_patchs) (ha : axis < c.npa) (side : Bool) :
    ∃ ext intr,
      c.extract_exterior_borders = some ext ∧
      c.extract_interior_borders = some intr ∧
      ((i, axis, side) ∈ ext ↔ ¬ c.SliceFullyDuplicated i axis side) ∧
      ((i, axis, side) ∈ intr ↔ c.SliceFullyDuplicated i axis side) := by
  have hn1 : ¬ c.npa ≤ 1 := by omega
  refine ⟨(List.range c.nb_patchs).flatMap (fun i =>
      (List.range c.npa).flatMap (fun axis =>
        (if ¬ c.sliceAllDup i axis false then [(i, axis, false)] else []) ++
        (if ¬ c.sliceAllDup i axis true then [(i, axis, true)] else []))),
    (List.range c.nb_patchs).flatMap (fun i =>
      (List.range c.npa).flatMap (fun axis =>
        (if c.sliceAllDup i axis false then [(i, axis, false)] else []) ++
        (if c.sliceAllDup i axis true then [(i, axis, true)] else []))),
    ?_, ?_, ?_, ?_⟩
  · rw [Conn.extract_exterior_borders, if_neg hn1]
  · rw [Conn.extract_interior_borders, if_neg hn1]
  · simp only [List.mem_flatMap, List.mem_range, List.mem_append, mem_ite_singleton,
      Prod.mk.injEq]
    rw [← sliceAllDup_iff c hlen hi axis side]
    constructor
    · rintro ⟨i2, hi2, a2, ha2, (⟨hc, rfl, rfl, rfl⟩ | ⟨hc, rfl, rfl, rfl⟩)⟩ <;>
        simpa using hc
    · intro hc
      refine ⟨i, hi, axis, ha, ?_⟩
      cases side
      · exact Or.inl ⟨by simpa using hc, rfl, rfl, rfl⟩
      · exact Or.inr ⟨by simpa using hc, rfl, rfl, rfl⟩
  · simp only [List.mem_flatMap, List.mem_range, List.mem_append, mem_ite_singleton,
      Prod.mk.injEq]
    rw [← sliceAllDup_iff c hlen hi axis side]
    constructor
    · rintro ⟨i2, hi2, a2, ha2, (⟨hc, rfl, rfl, rfl⟩ | ⟨hc, rfl, rfl, rfl⟩)⟩ <;>
        simpa using hc
    · intro hc
      refine ⟨i, hi, axis, ha, ?_⟩
      cases side
      · exact Or.inl ⟨by simpa using hc, rfl, rfl, rfl⟩
      · exact Or.inr ⟨by simpa using hc, rfl, rfl, rfl⟩

/-- Concrete instantiation of the C9 theorem: two 2x2 patches glued
along one edge; the glued slice of patch 0 (axis 0, far side). -/
theorem extract_borders_slice_selection_witness :
    2 ≤ (from_nodes_couples [(2, 4), (3, 5)] [[2, 2], [2, 2]]).npa ∧
    (from_nodes_couples [(2, 4), (3, 5)] [[2, 2], [2, 2]]).unique_nodes_inds.length
      = (from_nodes_couples [(2, 4), (3, 5)] [[2, 2], [2, 2]]).nb_nodes ∧
    0 < (from_nodes_couples [(2, 4), (3, 5)] [[2, 2], [2, 2]]).nb_patchs ∧
    0 < (from_nodes_couples [(2, 4), (3, 5)] [[2, 2], [2, 2]]).npa ∧
    ∃ ext intr,
      (from_nodes_couples [(2, 4), (3, 5)]
        [[2, 2], [2, 2]]).extract_exterior_borders = some ext ∧
      (from_nodes_couples [(2, 4), (3, 5)]
        [[2, 2], [2, 2]]).extract_interior_borders = some intr ∧
      ((0, 0, true) ∈ ext ↔
        ¬ (from_nodes_couples [(2, 4), (3, 5)]
          [[2, 2], [2, 2]]).SliceFullyDuplicated 0 0 true) ∧
      ((0, 0, true) ∈ intr ↔
        (from_nodes_couples [(2, 4), (3, 5)]
          [[2, 2], [2, 2]]).SliceFullyDuplicated 0 0 true) :=
  ⟨by decide, by decide, by decide, by decide,
    extract_borders_slice_selection (from_nodes_couples [(2, 4), (3, 5)]
      [[2, 2], [2, 2]]) (by decide) (by decide) (by decide) (by decide) true⟩

/-! ### The border correspondence search -/

/-- Counterexample to C6 as stated: with knot vectors [[0,1],[0,2]],
spans [(0,1),(0,2)], transpose [1,0] and flip [true,true], the source
reflects knots[transpose[0]] = [0,2] about spans[0] = (0,1) (giving
[-1,1]), not about its own span spans[transpose[0]] = (0,2) (which would
give [0,2]) as the claim states. -/
theorem transpose_and_flip_knots_counterexample :
    transpose_and_flip_knots [[0, 1], [0, 2]] [(0, 1), (0, 2)] [1, 0] [true, true]
      = [[-1, 1], [1, 2]] ∧
    transpose_and_flip_knots_claimed [[0, 1], [0, 2]] [(0, 1), (0, 2)] [1, 0]
      [true, true] = [[0, 2], [0, 1]] ∧
    (transpose_and_flip_knots [[0, 1], [0, 2]] [(0, 1), (0, 2)] [1, 0]
      [true, true]).getD 0 []
      ≠ (transpose_and_flip_knots_claimed [[0, 1], [0, 2]] [(0, 1), (0, 2)] [1, 0]
        [true, true]).getD 0 [] := by
  refine ⟨?_, ?_, ?_⟩ <;> with_unfolding_all decide

/-- C6 amended: the i-th output of transpose_and_flip_knots is
knots[transpose[i]] when flip[i] is false; when flip[i] is true it is
the reversed knot vector knots[transpose[i]] subtracted from the sum of
the endpoints of spans[i] - the span at the OUTPUT position i, not the
flipped knot vector's own span. -/
theorem transpose_and_flip_knots_entry (knots : List (List ℚ))
    (spans : List (ℚ × ℚ)) (tr : List Nat) (flip : List Bool)
    {i : Nat} (hi : i < flip.length) :
    (transpose_and_flip_knots knots spans tr flip).getD i []
      = (if flip.getD i false then
          (knots.getD (tr.getD i 0) []).reverse.map
            (fun k => (spans.getD i (0, 0)).1 + (spans.getD i (0, 0)).2 - k)
        else knots.getD (tr.getD i 0) []) := by
  have hlen : i < (transpose_and_flip_knots knots spans tr flip).length := by
    show i < ((List.range flip.length).map _).length
    simpa using hi
  rw [List.getD_eq_getElem _ _ hlen]
  show ((List.range flip.length).map _)[i] = _
  rw [List.getElem_map, List.getElem_range]

/-- Concrete instantiation of the amended C6 theorem. -/
theorem transpose_and_flip_knots_entry_witness :
    0 < ([true, true] : List Bool).length ∧
    (transpose_and_flip_knots [[0, 1], [0, 2]] [(0, 1), (0, 2)] [1, 0]
      [true, true]).getD 0 []
      = (if ([true, true] : List Bool).getD 0 false then
          (([[0, 1], [0, 2]] : List (List ℚ)).getD
            (([1, 0] : List Nat).getD 0 0) []).reverse.map
            (fun k => (([(0, 1), (0, 2)] : List (ℚ × ℚ)).getD 0 (0, 0)).1
              + (([(0, 1), (0, 2)] : List (ℚ × ℚ)).getD 0 (0, 0)).2 - k)
        else ([[0, 1], [0, 2]] : List (List ℚ)).getD
          (([1, 0] : List Nat).getD 0 0) []) :=
  ⟨by decide,
    transpose_and_flip_knots_entry [[0, 1], [0, 2]] [(0, 1), (0, 2)] [1, 0]
      [true, true] (by decide)⟩

/-- Membership characterization of the correspondence search: a record
is produced iff it is a well-formed candidate whose five checks pass.
The search never breaks out of its loops, so every passing candidate is
recorded. -/
theorem mem_from_splines_iff (ctrl_pts : List NDArr) (splines : List Patch)
    (rec : BorderCouple) :
    rec ∈ from_splines ctrl_pts splines ↔
      (rec.sp1 < splines.length ∧ rec.sp1 < rec.sp2 ∧ rec.sp2 < splines.length ∧
       rec.axis1 < (splines.getD rec.sp1 ⟨[], [], []⟩).NPa ∧
       rec.axis2 < (splines.getD rec.sp2 ⟨[], [], []⟩).NPa ∧
       rec.tr ∈ permsLex (List.range ((splines.headD ⟨[], [], []⟩).NPa - 1)) ∧
       rec.flip ∈ allFlip ((splines.headD ⟨[], [], []⟩).NPa - 1) ∧
       checksPass ctrl_pts splines rec.sp1 rec.sp2 rec.axis1 rec.axis2
         rec.front1 rec.front2 rec.tr rec.flip = true) := by
  obtain ⟨s1, s2, a1, a2, fr1, fr2, t, fl⟩ := rec
  simp only [from_splines, List.mem_flatMap, List.mem_range, List.mem_range'_1,
    List.mem_cons, List.not_mem_nil, or_false, mem_ite_singleton,
    BorderCouple.mk.injEq]
  constructor
  · rintro ⟨i1, hi1, i2, ⟨hi2a, hi2b⟩, b1, hb1, b2, hb2,
      g1, (rfl | rfl), g2, (rfl | rfl), t2, ht2, f2, hf2,
      hc, rfl, rfl, rfl, rfl, rfl, rfl, rfl, rfl⟩ <;>
      exact ⟨hi1, by omega, by omega, hb1, hb2, ht2, hf2, hc⟩
  · rintro ⟨h1, h2, h3, h4, h5, h6, h7, h8⟩
    refine ⟨s1, h1, s2, ⟨by omega, by omega⟩, a1, h4, a2, h5, fr1, ?_, fr2, ?_,
      t, h6, fl, h7, h8, rfl, rfl, rfl, rfl, rfl, rfl, rfl, rfl⟩
    · cases fr1
      · exact Or.inl rfl
      · exact Or.inr rfl
    · cases fr2
      · exact Or.inl rfl
      · exact Or.inr rfl

/-- Counterexample to C2 as stated: two degenerate 2x2 patches whose
shared edge has both control points equal (a palindromic boundary).  For
the single boundary pair (patch 0 axis 0 front side, patch 1 axis 0 back
side), BOTH flip combinations pass all five checks and BOTH are
recorded: the search does not stop at the first passing combination. -/
theorem from_splines_two_records_counterexample :
    from_splines
      [⟨[2, 2, 2], [0, 0, 1, 1, 0, 1, 1/2, 1/2]⟩,
       ⟨[2, 2, 2], [1, 1, 2, 2, 1/2, 1/2, 0, 1]⟩]
      [⟨[1, 1], [[0, 0, 1, 1], [0, 0, 1, 1]], [(0, 1), (0, 1)]⟩,
       ⟨[1, 1], [[0, 0, 1, 1], [0, 0, 1, 1]], [(0, 1), (0, 1)]⟩]
      = [⟨0, 1, 0, 0, true, false, [0], [false]⟩,
         ⟨0, 1, 0, 0, true, false, [0], [true]⟩] ∧
    (⟨0, 1, 0, 0, true, false, [0], [false]⟩ : BorderCouple)
      ≠ ⟨0, 1, 0, 0, true, false, [0], [true]⟩ := by
  constructor
  · with_unfolding_all decide
  · decide

/-- C2 amended: every permutation/flip combination passing all five
checks is accepted and recorded as one correspondence record; the search
does not stop after the first passing combination, so a boundary pair
admitting several passing combinations yields several records, and
exactly one record only when exactly one combination passes. -/
theorem from_splines_records_every_passing_combination
    (ctrl_pts : List NDArr) (splines : List Patch) (rec : BorderCouple) :
    rec ∈ from_splines ctrl_pts splines ↔
      (rec.sp1 < splines.length ∧ rec.sp1 < rec.sp2 ∧ rec.sp2 < splines.length ∧
       rec.axis1 < (splines.getD rec.sp1 ⟨[], [], []⟩).NPa ∧
       rec.axis2 < (splines.getD rec.sp2 ⟨[], [], []⟩).NPa ∧
       rec.tr ∈ permsLex (List.range ((splines.headD ⟨[], [], []⟩).NPa - 1)) ∧
       rec.flip ∈ allFlip ((splines.headD ⟨[], [], []⟩).NPa - 1) ∧
       checksPass ctrl_pts splines rec.sp1 rec.sp2 rec.axis1 rec.axis2
         rec.front1 rec.front2 rec.tr rec.flip = true) :=
  mem_from_splines_iff ctrl_pts splines rec

/-- C3: every record emitted by from_splines was verified at
construction: applying the recorded transpose and flip to patch2's
extracted boundary control-point grid is all-close to patch1's extracted
boundary grid. -/
theorem from_splines_records_verified (ctrl_pts : List NDArr)
    (splines : List Patch) (rec : BorderCouple)
    (hmem : rec ∈ from_splines ctrl_pts splines) :
    allclose
      (extract_border_pts (ctrl_pts.getD rec.sp1 ⟨[], []⟩) rec.axis1 rec.front1 1 0)
      (transpose_and_flip
        (extract_border_pts (ctrl_pts.getD rec.sp2 ⟨[], []⟩) rec.axis2 rec.front2 1 0)
        rec.tr rec.flip 1) = true := by
  have h8 := ((mem_from_splines_iff ctrl_pts splines rec).mp hmem).2.2.2.2.2.2.2
  simp only [checksPass, Bool.and_eq_true] at h8
  exact h8.2

/-- Concrete instantiation of the C3 theorem: two unit squares sharing
the edge x = 1; the single record of the search satisfies the geometric
check. -/
theorem from_splines_records_verified_witness :
    (⟨0, 1, 0, 0, true, false, [0], [false]⟩ : BorderCouple) ∈
      from_splines
        [⟨[2, 2, 2], [0, 0, 1, 1, 0, 1, 0, 1]⟩,
         ⟨[2, 2, 2], [1, 1, 2, 2, 0, 1, 0, 1]⟩]
        [⟨[1, 1], [[0, 0, 1, 1], [0, 0, 1, 1]], [(0, 1), (0, 1)]⟩,
         ⟨[1, 1], [[0, 0, 1, 1], [0, 0, 1, 1]], [(0, 1), (0, 1)]⟩] ∧
    allclose
      (extract_border_pts
        (([⟨[2, 2, 2], [0, 0, 1, 1, 0, 1, 0, 1]⟩,
           ⟨[2, 2, 2], [1, 1, 2, 2, 0, 1, 0, 1]⟩] : List NDArr).getD 0 ⟨[], []⟩)
        0 true 1 0)
      (transpose_and_flip
        (extract_border_pts
          (([⟨[2, 2, 2], [0, 0, 1, 1, 0, 1, 0, 1]⟩,
             ⟨[2, 2, 2], [1, 1, 2, 2, 0, 1, 0, 1]⟩] : List NDArr).getD 1 ⟨[], []⟩)
          0 false 1 0)
        [0] [false] 1) = true :=
  ⟨by with_unfolding_all decide,
    from_splines_records_verified
      [⟨[2, 2, 2], [0, 0, 1, 1, 0, 1, 0, 1]⟩,
       ⟨[2, 2, 2], [1, 1, 2, 2, 0, 1, 0, 1]⟩]
      [⟨[1, 1], [[0, 0, 1, 1], [0, 0, 1, 1]], [(0, 1), (0, 1)]⟩,
       ⟨[1, 1], [[0, 0, 1, 1], [0, 0, 1, 1]], [(0, 1), (0, 1)]⟩]
      ⟨0, 1, 0, 0, true, false, [0], [false]⟩
      (by with_unfolding_all decide)⟩

end Bsplyne
